import Mathlib

/-!
Shallow embedding of the iomanager library (src/iomanager/iomanager.py) and of
the uuid/datetime default coercion functions of the legacy ioprocess module
(src/ioprocess/ioprocess.py), together with theorems settling the frozen
claims about the specification.

Python values and schema ("iospec") nodes live in one dynamically-typed world;
we embed both as a single inductive `Obj`.  Python dictionaries are embedded as
association lists in insertion order (Python dicts preserve insertion order and
the library iterates them in that order).  Python exceptions that escape a
function are embedded with `Except`:
  * WrongTypeError / WrongTypeDictError carry a `WrongTypeResult`;
  * TypeError / AttributeError (which the library never catches) are the
    `PyErr` variants.
Recursive procedures are embedded with an explicit fuel argument (structural
recursion on the fuel, so everything is kernel-computable); the public
wrappers supply the fuel bound `depth a + depth b`, which is proved
sufficient, so the wrappers satisfy the natural recursion equations of the
source functions.
-/

namespace IOMgr

/-- A Python dict key as used by the library: either a string key (named
    parameters) or an integer index (positional mappings built from lists). -/
inductive Key where
  | kStr (s : String)
  | kInt (n : Nat)
deriving DecidableEq

/-- Runtime type identifiers: the value of Python type(x) for the kinds of
    objects the library manipulates.  `tCustom c` is the user-defined class
    with identifier `c`; `tType` is the metaclass (the type of class objects
    such as int, AnyType, NotProvided); `tListOfCls` is the ListOf class
    itself (the type of a ListOf instance). -/
inductive TypeHandle where
  | tInt
  | tBool
  | tStr
  | tNoneType
  | tList
  | tDict
  | tType
  | tListOfCls
  | tCustom (c : Nat)
deriving DecidableEq

/-- A Python object, as far as the library is concerned: data values
    (ints, bools, strings, None, instances of user classes, lists, dicts)
    and schema nodes (type handles, the AnyType class, ListOf instances, and
    the NotProvided sentinel class).  Lists and tuples are both `vList`
    (the library treats every non-string Sequence alike). -/
inductive Obj where
  | vInt (n : Int)
  | vBool (b : Bool)
  | vStr (s : String)
  | vNone
  | vCustom (cls : Nat) (id : Nat)
  | vList (xs : List Obj)
  | vDict (entries : List (Key × Obj))
  | handle (t : TypeHandle)
  | anyType
  | listOf (inner : Obj)
  | notProvided

namespace Obj

/-- Python type(x) for an embedded object. -/
def typeOf : Obj → TypeHandle
  | vInt _ => .tInt
  | vBool _ => .tBool
  | vStr _ => .tStr
  | vNone => .tNoneType
  | vCustom c _ => .tCustom c
  | vList _ => .tList
  | vDict _ => .tDict
  | handle _ => .tType
  | anyType => .tType
  | listOf _ => .tListOfCls
  | notProvided => .tType

/-- Embeds is_container(obj, Mapping): a Mapping instance, never str/bytes. -/
def isDictC : Obj → Bool
  | vDict _ => true
  | _ => false

/-- Embeds is_container(obj, Sequence): a Sequence instance that is not
    str/bytes.  Python strings are Sequences but is_container excludes them;
    ListOf instances are not Sequences. -/
def isSeqC : Obj → Bool
  | vList _ => true
  | _ => false

/-- Embeds is_container(obj, (Sequence, ListOf)). -/
def isSeqOrListOfC : Obj → Bool
  | vList _ => true
  | listOf _ => true
  | _ => false

/-- Embeds the test `x is AnyType`. -/
def isAnyType : Obj → Bool
  | anyType => true
  | _ => false

/-- Embeds the test `x is None`. -/
def isNone : Obj → Bool
  | vNone => true
  | _ => false

end Obj

/-- Maximum nesting depth of an object (always at least 1); used for the fuel
    bounds of the recursive procedures. -/
def depth : Obj → Nat
  | .vList xs => depthList xs + 1
  | .vDict es => depthEntries es + 1
  | .listOf s => depth s + 1
  | _ => 1
where
  /-- Maximum depth of the elements of a list (0 when empty). -/
  depthList : List Obj → Nat
    | [] => 0
    | x :: xs => max (depth x) (depthList xs)
  /-- Maximum depth of the values of an association list (0 when empty). -/
  depthEntries : List (Key × Obj) → Nat
    | [] => 0
    | (_, v) :: es => max (depth v) (depthEntries es)

theorem depth_pos (a : Obj) : 1 ≤ depth a := by
  cases a <;> simp only [depth] <;> omega

theorem depth_le_depthList {x : Obj} {xs : List Obj} (h : x ∈ xs) :
    depth x ≤ depth.depthList xs := by
  induction xs with
  | nil => cases h
  | cons y ys ih =>
    rcases List.mem_cons.1 h with rfl | h
    · simp [depth.depthList]
    · simp only [depth.depthList]
      exact le_max_of_le_right (ih h)

theorem depth_le_depthEntries {k : Key} {v : Obj} {es : List (Key × Obj)}
    (h : (k, v) ∈ es) : depth v ≤ depth.depthEntries es := by
  induction es with
  | nil => cases h
  | cons e es ih =>
    obtain ⟨k0, v0⟩ := e
    rcases List.mem_cons.1 h with he | hm
    · rw [← he]
      simp [depth.depthEntries]
    · simp only [depth.depthEntries]
      exact le_max_of_le_right (ih hm)

/-- Python dict lookup `d.get(k, NotProvided)`. -/
def getNP (d : List (Key × Obj)) (k : Key) : Obj :=
  match d.lookup k with
  | some v => v
  | none => .notProvided

/-- The keys of the set union `set(a.keys()) | set(b.keys())`, listed with
    the keys of `a` first (any order is observationally equivalent since
    the resulting dict is only read back through lookups). -/
def keysUnion (da db : List (Key × Obj)) : List Key :=
  da.map Prod.fst ++ (db.map Prod.fst).filter (fun k => !(da.map Prod.fst).contains k)

theorem lookup_mem {l : List (Key × Obj)} {k : Key} {v : Obj}
    (h : l.lookup k = some v) : (k, v) ∈ l := by
  induction l with
  | nil => simp [List.lookup] at h
  | cons e es ih =>
    obtain ⟨k0, v0⟩ := e
    simp only [List.lookup] at h
    by_cases hk : k = k0
    · subst hk
      simp only [beq_self_eq_true] at h
      simp only [Option.some.injEq] at h
      rw [← h]
      exact List.mem_cons_self _ _
    · rw [beq_false_of_ne hk] at h
      exact List.mem_cons_of_mem _ (ih h)

theorem lookup_of_mem_fst {l : List (Key × Obj)} {k : Key} {v0 : Obj}
    (h : (k, v0) ∈ l) : ∃ v, l.lookup k = some v := by
  induction l with
  | nil => cases h
  | cons e es ih =>
    obtain ⟨k0, w⟩ := e
    by_cases hk : k = k0
    · subst hk
      exact ⟨w, by simp [List.lookup]⟩
    · rcases List.mem_cons.1 h with he | h
      · cases he
        exact absurd rfl hk
      · obtain ⟨v, hv⟩ := ih h
        exact ⟨v, by simp only [List.lookup, beq_false_of_ne hk]; exact hv⟩

theorem depth_getNP_le (d : List (Key × Obj)) (k : Key) :
    depth (getNP d k) ≤ max 1 (depth.depthEntries d) := by
  unfold getNP
  cases h : d.lookup k with
  | none => simp [depth]
  | some v => exact le_max_of_le_right (depth_le_depthEntries (lookup_mem h))

/-- If a key occurs in the union of the key sets, at least one lookup hits,
    which gives a strict depth decrease for the recursive combine call. -/
theorem keysUnion_depth_lt {da db : List (Key × Obj)} {k : Key}
    (h : k ∈ keysUnion da db) :
    depth (getNP da k) + depth (getNP db k)
      < depth (.vDict da) + depth (.vDict db) := by
  have hda := depth_getNP_le da k
  have hdb := depth_getNP_le db k
  have hhit : (∃ v, da.lookup k = some v) ∨ (∃ v, db.lookup k = some v) := by
    unfold keysUnion at h
    rcases List.mem_append.1 h with h | h
    · obtain ⟨⟨k0, v0⟩, hmem, hfst⟩ := List.mem_map.1 h
      cases hfst
      exact Or.inl (lookup_of_mem_fst hmem)
    · obtain ⟨⟨k0, v0⟩, hmem, hfst⟩ := List.mem_map.1 (List.mem_of_mem_filter h)
      cases hfst
      exact Or.inr (lookup_of_mem_fst hmem)
  simp only [depth]
  rcases hhit with ⟨v, hv⟩ | ⟨v, hv⟩
  · have h1 : depth (getNP da k) ≤ depth.depthEntries da := by
      unfold getNP
      rw [hv]
      exact depth_le_depthEntries (lookup_mem hv)
    have h2 : 1 ≤ depth (getNP db k) → True := fun _ => trivial
    have hM : depth (getNP db k) ≤ max 1 (depth.depthEntries db) := hdb
    have := depth_pos (getNP da k)
    omega
  · have h1 : depth (getNP db k) ≤ depth.depthEntries db := by
      unfold getNP
      rw [hv]
      exact depth_le_depthEntries (lookup_mem hv)
    have hM : depth (getNP da k) ≤ max 1 (depth.depthEntries da) := hda
    have := depth_pos (getNP db k)
    omega

/-- Uncaught Python exceptions that the library can raise. -/
inductive PyErr where
  | typeError
  | attributeError
deriving DecidableEq

/-- Helper for building `dict(zip(range(len(xs)), xs))`: enumerate a list
    starting at index `i`. -/
def pyEnum : List Obj → Nat → List (Key × Obj)
  | [], _ => []
  | x :: xs, i => (.kInt i, x) :: pyEnum xs (i + 1)

/-- Embeds `dict(zip(range(len(xs)), xs))` for a plain sequence. -/
def enumDict (xs : List Obj) : List (Key × Obj) := pyEnum xs 0

/-- Embeds make_dict_from_listlike(listlike_obj, target_length).
    For a ListOf instance without a target length the source raises TypeError
    explicitly; for a non-sized object, len() raises TypeError.  (Every call
    site passes a Sequence or a ListOf, so the dict arm of the Python
    function, which would build a nonsensical index-to-key mapping, is
    unreachable and is embedded as the same TypeError arm.) -/
def makeDictFromListlike (x : Obj) (targetLength : Option Nat) :
    Except PyErr (List (Key × Obj)) :=
  match x with
  | .listOf s =>
    match targetLength with
    | none => .error .typeError
    | some n => .ok ((List.range n).map (fun i => (Key.kInt i, s)))
  | .vList xs => .ok (enumDict xs)
  | _ => .error .typeError

/-- Python 2 ordering on dict keys as used by `sorted(result_dict.keys())`
    (numbers sort before strings; only integer keys actually occur there). -/
def keyLE : Key → Key → Bool
  | .kInt m, .kInt n => m ≤ n
  | .kInt _, .kStr _ => true
  | .kStr _, .kInt _ => false
  | .kStr s, .kStr t => s ≤ t

def insertKey (k : Key) : List Key → List Key
  | [] => [k]
  | x :: xs => if keyLE k x then k :: x :: xs else x :: insertKey k xs

/-- Embeds `sorted(keys)` (insertion sort; stable, and the identity on the
    already-ascending integer key lists produced by the library). -/
def sortKeys : List Key → List Key
  | [] => []
  | x :: xs => insertKey x (sortKeys xs)

/-- Fueled embedding of combine_iospecs / combine_iospecs_dict /
    combine_iospecs_list (the two helper functions are inlined in the arms
    for the dict and sequence cases; `combineIospecsDict` and
    `combineIospecsList` below restate them separately and are proved to
    agree).  Note the dispatch: the dict arm requires both sides to be plain
    dicts and the sequence arm requires both sides to be plain (non-string)
    Sequences; a ListOf instance is neither, so it falls through to the
    required-wins arms. -/
def combineFuel : Nat → Obj → Obj → Obj
  | 0, a, _ => a
  | n + 1, a, b =>
    match a, b with
    | .vDict da, .vDict db =>
        .vDict ((keysUnion da db).map
          (fun k => (k, combineFuel n (getNP da k) (getNP db k))))
    | .vList xs, .vList ys =>
        let rd := (keysUnion (enumDict xs) (enumDict ys)).map
          (fun k => (k, combineFuel n (getNP (enumDict xs) k) (getNP (enumDict ys) k)))
        .vList ((sortKeys (rd.map Prod.fst)).map (fun k => getNP rd k))
    | .notProvided, .notProvided => .anyType
    | .notProvided, b => b
    | a, _ => a

/-- Embeds combine_iospecs(iospec_a=NotProvided, iospec_b=NotProvided). -/
def combineIospecs (a b : Obj) : Obj := combineFuel (depth a + depth b) a b

/-- Embeds combine_iospecs_dict. -/
def combineIospecsDict (da db : List (Key × Obj)) : List (Key × Obj) :=
  (keysUnion da db).map (fun k => (k, combineIospecs (getNP da k) (getNP db k)))

/-- Embeds combine_iospecs_list: build positional dicts, combine as a dict,
    read the result back ordered by sorted index. -/
def combineIospecsList (xs ys : List Obj) : List Obj :=
  let rd := combineIospecsDict (enumDict xs) (enumDict ys)
  (sortKeys (rd.map Prod.fst)).map (fun k => getNP rd k)

theorem depthEntries_pyEnum (xs : List Obj) (i : Nat) :
    depth.depthEntries (pyEnum xs i) = depth.depthList xs := by
  induction xs generalizing i with
  | nil => rfl
  | cons x xs ih => simp [pyEnum, depth.depthEntries, depth.depthList, ih]

theorem keysUnion_enum_depth_lt {xs ys : List Obj} {k : Key}
    (h : k ∈ keysUnion (enumDict xs) (enumDict ys)) :
    depth (getNP (enumDict xs) k) + depth (getNP (enumDict ys) k)
      < depth (.vList xs) + depth (.vList ys) := by
  have h2 := keysUnion_depth_lt h
  simp only [depth, enumDict, depthEntries_pyEnum] at h2 ⊢
  omega

theorem combineFuel_succ_dict (n : Nat) (da db : List (Key × Obj)) :
    combineFuel (n + 1) (.vDict da) (.vDict db)
      = .vDict ((keysUnion da db).map
          (fun k => (k, combineFuel n (getNP da k) (getNP db k)))) := rfl

theorem combineFuel_succ_list (n : Nat) (xs ys : List Obj) :
    combineFuel (n + 1) (.vList xs) (.vList ys)
      = .vList ((sortKeys (((keysUnion (enumDict xs) (enumDict ys)).map
            (fun k => (k, combineFuel n (getNP (enumDict xs) k) (getNP (enumDict ys) k)))).map
              Prod.fst)).map
          (fun k => getNP ((keysUnion (enumDict xs) (enumDict ys)).map
            (fun k => (k, combineFuel n (getNP (enumDict xs) k) (getNP (enumDict ys) k)))) k)) :=
  rfl

/-- Fuel irrelevance for combine: any two sufficient fuels compute the same
    result. -/
theorem combineFuel_congr :
    ∀ n m a b, depth a + depth b ≤ n → depth a + depth b ≤ m →
      combineFuel n a b = combineFuel m a b := by
  intro n
  induction n using Nat.strong_induction_on with
  | _ n ih =>
    intro m a b hn hm
    have ha := depth_pos a
    have hb := depth_pos b
    obtain ⟨n1, rfl⟩ : ∃ k, n = k + 1 := ⟨n - 1, by omega⟩
    obtain ⟨m1, rfl⟩ : ∃ k, m = k + 1 := ⟨m - 1, by omega⟩
    cases a <;> cases b <;> try rfl
    case vDict.vDict da db =>
      rw [combineFuel_succ_dict, combineFuel_succ_dict]
      congr 1
      apply List.map_congr_left
      intro k hk
      have hlt := @keysUnion_depth_lt da db k hk
      simp only [Prod.mk.injEq, true_and]
      exact ih n1 (by omega) m1 _ _ (by omega) (by omega)
    case vList.vList xs ys =>
      rw [combineFuel_succ_list, combineFuel_succ_list]
      have hrd :
          (keysUnion (enumDict xs) (enumDict ys)).map
            (fun k => (k, combineFuel n1 (getNP (enumDict xs) k) (getNP (enumDict ys) k)))
          = (keysUnion (enumDict xs) (enumDict ys)).map
            (fun k => (k, combineFuel m1 (getNP (enumDict xs) k) (getNP (enumDict ys) k))) := by
        apply List.map_congr_left
        intro k hk
        have hlt := @keysUnion_enum_depth_lt xs ys k hk
        simp only [Prod.mk.injEq, true_and]
        exact ih n1 (by omega) m1 _ _ (by omega) (by omega)
      rw [hrd]

/-- Any sufficient fuel computes combine_iospecs. -/
theorem combineFuel_eq {n : Nat} {a b : Obj} (h : depth a + depth b ≤ n) :
    combineFuel n a b = combineIospecs a b :=
  combineFuel_congr n (depth a + depth b) a b h (Nat.le_refl _)

/-- Recursion equation: combine_iospecs on two dicts delegates to
    combine_iospecs_dict. -/
theorem combineIospecs_dict_dict (da db : List (Key × Obj)) :
    combineIospecs (.vDict da) (.vDict db) = .vDict (combineIospecsDict da db) := by
  have hf : depth (Obj.vDict da) + depth (Obj.vDict db)
      = (depth (Obj.vDict da) + depth.depthEntries db) + 1 := by
    simp only [depth]
    omega
  rw [combineIospecs, hf, combineFuel_succ_dict]
  congr 1
  apply List.map_congr_left
  intro k hk
  have hlt := @keysUnion_depth_lt da db k hk
  simp only [Prod.mk.injEq, true_and]
  exact combineFuel_eq (by simp only [depth] at hlt ⊢; omega)

/-- Recursion equation: combine_iospecs on two plain sequences delegates to
    combine_iospecs_list. -/
theorem combineIospecs_list_list (xs ys : List Obj) :
    combineIospecs (.vList xs) (.vList ys) = .vList (combineIospecsList xs ys) := by
  have hf : depth (Obj.vList xs) + depth (Obj.vList ys)
      = (depth (Obj.vList xs) + depth.depthList ys) + 1 := by
    simp only [depth]
    omega
  rw [combineIospecs, hf, combineFuel_succ_list]
  have hrd :
      (keysUnion (enumDict xs) (enumDict ys)).map
        (fun k => (k, combineFuel (depth (Obj.vList xs) + depth.depthList ys)
          (getNP (enumDict xs) k) (getNP (enumDict ys) k)))
      = combineIospecsDict (enumDict xs) (enumDict ys) := by
    apply List.map_congr_left
    intro k hk
    have hlt := @keysUnion_enum_depth_lt xs ys k hk
    simp only [Prod.mk.injEq, true_and]
    exact combineFuel_eq (by simp only [depth] at hlt ⊢; omega)
  rw [hrd]
  rfl

/-- Required-wins arm: when the two nodes are not both plain dicts and not
    both plain sequences, and the first node is provided, combine_iospecs
    returns the first (required-side) node unchanged. -/
theorem combineIospecs_required_wins {a b : Obj} (ha : a ≠ .notProvided)
    (hd : (a.isDictC && b.isDictC) = false) (hs : (a.isSeqC && b.isSeqC) = false) :
    combineIospecs a b = a := by
  rw [combineIospecs]
  cases a <;> cases b <;>
    first
      | rfl
      | exact absurd rfl ha
      | simp [Obj.isDictC, Obj.isSeqC] at hd hs

/-- Absent-required arm: combine_iospecs(NotProvided, b) returns b when b is
    provided. -/
theorem combineIospecs_notProvided_left {b : Obj} (hb : b ≠ .notProvided) :
    combineIospecs .notProvided b = b := by
  rw [combineIospecs]
  cases b <;> first | rfl | exact absurd rfl hb

theorem combineIospecs_notProvided_both :
    combineIospecs .notProvided .notProvided = .anyType := rfl

theorem mem_pyEnum {k : Key} {v : Obj} {xs : List Obj} {i : Nat}
    (h : (k, v) ∈ pyEnum xs i) : v ∈ xs := by
  induction xs generalizing i with
  | nil => cases h
  | cons x xs ih =>
    rcases List.mem_cons.1 h with he | hm
    · cases he
      exact List.mem_cons_self _ _
    · exact List.mem_cons_of_mem _ (ih hm)

/-- Values of a dict built by make_dict_from_listlike are strictly shallower
    than the list-like object it was built from. -/
theorem depth_makeDict_lt {x : Obj} {t : Option Nat} {d : List (Key × Obj)}
    {k : Key} {v : Obj} (hx : makeDictFromListlike x t = .ok d) (hm : (k, v) ∈ d) :
    depth v < depth x := by
  cases x <;> simp only [makeDictFromListlike] at hx <;>
    try exact Except.noConfusion hx
  case vList xs =>
    cases hx
    have : v ∈ xs := mem_pyEnum hm
    have := depth_le_depthList this
    simp only [depth]
    omega
  case listOf s =>
    cases t with
    | none => cases hx
    | some n =>
      simp only [Except.ok.injEq] at hx
      subst hx
      obtain ⟨i, _, hiv⟩ := List.mem_map.1 hm
      cases hiv
      simp only [depth]
      omega

-- ------------------------- Structural diff engine -------------------------

/-- The result of difference_ioval / difference_dict / difference_list:
    the NoDifference sentinel, a leaf value recorded as-is, an
    UnknownContainer abbreviation marker, or a (nested) dict of results. -/
inductive DiffResult where
  | noDiff
  | leaf (v : Obj)
  | unknownContainer (isDict : Bool)
  | dict (entries : List (Key × DiffResult))

/-- Embeds the dict comprehension loop of difference_dict: for each key of
    the first dict, diff its value against `dict_b.get(key, NotProvided)`
    and record the result when it is not NoDifference.  An uncaught Python
    error from a recursive call propagates immediately. -/
def diffEntries (dij : Obj → Obj → Except PyErr DiffResult) :
    List (Key × Obj) → List (Key × Obj) → Except PyErr (List (Key × DiffResult))
  | [], _ => .ok []
  | (k, va) :: rest, db =>
    match dij va (getNP db k) with
    | .error e => .error e
    | .ok r =>
      match diffEntries dij rest db with
      | .error e => .error e
      | .ok tail =>
        match r with
        | .noDiff => .ok tail
        | r => .ok ((k, r) :: tail)

/-- Embeds the tail of difference_dict: an empty result dict becomes the
    NoDifference sentinel. -/
def wrapDiff : Except PyErr (List (Key × DiffResult)) → Except PyErr DiffResult
  | .error e => .error e
  | .ok [] => .ok .noDiff
  | .ok es => .ok (.dict es)

/-- Fueled embedding of difference_ioval / difference_dict / difference_list
    (abbreviate is the first argument).  The sequence case first finds the
    target length from the first of the two objects that has a len()
    (a ListOf has none; two ListOf objects raise TypeError), converts both to
    positional dicts and recurses as the dict case.  When item_b is the
    NotProvided sentinel, the leaf is recorded (abbreviated to an
    UnknownContainer marker when abbreviating and the leaf is a container);
    when item_b is provided, there is no difference. -/
def differenceFuel : Nat → Bool → Obj → Obj → Except PyErr DiffResult
  | 0, _, _, _ => .ok .noDiff
  | n + 1, ab, a, b =>
    match a, b with
    | .vDict da, .vDict db => wrapDiff (diffEntries (differenceFuel n ab) da db)
    | a, b =>
      if a.isSeqOrListOfC && b.isSeqOrListOfC then
        match (match a, b with
               | .vList xs, _ => .ok xs.length
               | _, .vList ys => .ok ys.length
               | _, _ => .error PyErr.typeError : Except PyErr Nat) with
        | .error e => .error e
        | .ok t =>
          match makeDictFromListlike a (some t), makeDictFromListlike b (some t) with
          | .ok da2, .ok db2 => wrapDiff (diffEntries (differenceFuel n ab) da2 db2)
          | .error e, _ => .error e
          | _, .error e => .error e
      else
        match b with
        | .notProvided =>
          if ab then
            match a with
            | .vList _ => .ok (.unknownContainer false)
            | .vDict _ => .ok (.unknownContainer true)
            | a => .ok (.leaf a)
          else .ok (.leaf a)
        | _ => .ok .noDiff

/-- Embeds difference_ioval(item_a, item_b, abbreviate) (the method touches
    no processor state). -/
def differenceIoval (ab : Bool) (a b : Obj) : Except PyErr DiffResult :=
  differenceFuel (depth a + depth b) ab a b

-- ------------------------- Type confirmation engine -----------------------

/-- A failure result: a WrongTypePair (the expected schema node and the
    runtime type of the offending value) or a nested dict of failure
    results. -/
inductive WrongTypeResult where
  | pair (expected : Obj) (got : TypeHandle)
  | dict (entries : List (Key × WrongTypeResult))

/-- An exception escaping the type-confirmation engine: a WrongTypeError /
    WrongTypeDictError (carrying its failure result), or an uncaught Python
    error. -/
inductive CErr where
  | wrong (r : WrongTypeResult)
  | py (e : PyErr)

/-- Outcome of a custom typecheck function: it can raise
    TypeCheckSuccessError, raise TypeCheckFailureError, or return normally
    (defer to the default logic). -/
inductive TcOutcome where
  | success
  | failure
  | defer

/-- Outcome of a custom coercion function: return a value, or raise
    CoercionSuccessError carrying the value to use. -/
inductive CoOutcome where
  | ret (v : Obj)
  | success (v : Obj)

/-- The configuration of an IOProcessor.  An absent typecheck_functions or
    coercion_functions attribute is embedded as the empty table (an absent
    attribute raises AttributeError at lookup, which the source catches
    together with KeyError). -/
structure IOProcessor where
  required : Obj := .notProvided
  optional : Obj := .notProvided
  unlimited : Bool := false
  typecheckFns : List (Obj × (Obj → Obj → TcOutcome)) := []
  coercionFns : List (Obj × (Obj → Obj → CoOutcome)) := []
  errorMsg : String := "Invalid input/output."

/-- Equality of Python class objects used as dict keys in the typecheck /
    coercion function tables.  Keys of those dicts must be hashable, so
    container schema nodes never occur as keys, and ListOf instances compare
    by object identity (a ListOf key can never be the very node handed to a
    later verify call, so it never matches). -/
def tableKeyEq : Obj → Obj → Bool
  | .handle t, .handle u => t == u
  | .anyType, .anyType => true
  | .notProvided, .notProvided => true
  | _, _ => false

/-- Embeds `table[expected_type]` returning none for KeyError. -/
def tableLookup {α : Type} (tbl : List (Obj × α)) (k : Obj) : Option α :=
  match tbl with
  | [] => none
  | (k0, v) :: rest => if tableKeyEq k k0 then some v else tableLookup rest k

/-- Embeds isinstance(v, t) for a concrete type handle (covers the one
    builtin subclass relation that matters: bool is a subclass of int). -/
def instanceOf (v : Obj) (t : TypeHandle) : Bool :=
  (v.typeOf == t) || (match v, t with | .vBool _, .tInt => true | _, _ => false)

/-- Embeds isinstance(v, cls): a TypeError when cls is not a class object. -/
def isInstance (v : Obj) (cls : Obj) : Except PyErr Bool :=
  match cls with
  | .handle t => .ok (instanceOf v t)
  | .anyType => .ok false
  | .notProvided => .ok false
  | _ => .error .typeError

/-- Embeds the loop of confirm_type_dict: every key of the value dict that
    also occurs in the spec dict is checked; WrongTypeError failure results
    are collected in iteration order; an uncaught Python error propagates
    immediately. -/
def collectWrongs (check : Obj → Obj → Except CErr Unit) :
    List (Key × Obj) → List (Key × Obj) → Except PyErr (List (Key × WrongTypeResult))
  | [], _ => .ok []
  | (k, v) :: rest, ispec =>
    match ispec.lookup k with
    | none => collectWrongs check rest ispec
    | some s =>
      match check v s with
      | .ok _ => collectWrongs check rest ispec
      | .error (.py e) => .error e
      | .error (.wrong r) =>
        match collectWrongs check rest ispec with
        | .error e => .error e
        | .ok tail => .ok ((k, r) :: tail)

/-- Embeds confirm_type_dict, parameterized by the per-value check (the
    recursive confirm_type_ioval call with the chosen nonetype_ok). -/
def confirmTypeDictCore (check : Obj → Obj → Except CErr Unit) (ioval : Obj)
    (ispec : List (Key × Obj)) : Except CErr Unit :=
  match ioval with
  | .vDict dv =>
    match collectWrongs check dv ispec with
    | .error e => .error (.py e)
    | .ok [] => .ok ()
    | .ok ws => .error (.wrong (.dict ws))
  | v => .error (.wrong (.pair (.handle .tDict) v.typeOf))

/-- Embeds the tail of confirm_type_ioval after the container dispatch and
    the custom-hook block: the None check followed by the general case
    (isinstance is evaluated first inside the disjunction and can raise). -/
def confirmGeneralCase (nOk : Bool) (ioval expected : Obj) : Except CErr Unit :=
  match ioval, nOk with
  | .vNone, false => .error (.wrong (.pair expected .tNoneType))
  | _, _ =>
    match isInstance ioval expected with
    | .error e => .error (.py e)
    | .ok b =>
      if b || expected.isAnyType || (ioval.isNone && nOk) then .ok ()
      else .error (.wrong (.pair expected ioval.typeOf))

/-- Fueled embedding of confirm_type_ioval / confirm_type_dict /
    confirm_type_list.  The dict branch calls confirm_type_dict with the
    default nonetype_ok=True (the incoming flag is not forwarded); the list
    branch normalizes value and spec to positional dicts and forces
    nonetype_ok=False exactly when the spec is a ListOf instance. -/
def confirmFuel : Nat → IOProcessor → Bool → Obj → Obj → Except CErr Unit
  | 0, _, _, _, _ => .ok ()
  | n + 1, p, nOk, ioval, expected0 =>
    let expected : Obj := match expected0 with | .notProvided => .anyType | e => e
    match expected with
    | .vDict ds => confirmTypeDictCore (fun v s => confirmFuel n p true v s) ioval ds
    | .vList _ | .listOf _ =>
      match ioval with
      | .vList xs =>
        match makeDictFromListlike expected (some xs.length) with
        | .error e => .error (.py e)
        | .ok ispec =>
          let elemNOk : Bool := match expected with | .listOf _ => false | _ => true
          confirmTypeDictCore (fun v s => confirmFuel n p elemNOk v s)
            (.vDict (enumDict xs)) ispec
      | v => .error (.wrong (.pair expected v.typeOf))
    | expected =>
      match tableLookup p.typecheckFns expected with
      | some f =>
        match f ioval expected with
        | .success => .ok ()
        | .failure => .error (.wrong (.pair expected ioval.typeOf))
        | .defer => confirmGeneralCase nOk ioval expected
      | none => confirmGeneralCase nOk ioval expected

/-- Embeds confirm_type_ioval(ioval, expected_type, nonetype_ok=True). -/
def confirmTypeIoval (p : IOProcessor) (ioval expected : Obj) (nOk : Bool := true) :
    Except CErr Unit :=
  confirmFuel (depth ioval + depth expected) p nOk ioval expected

/-- Embeds confirm_type_dict(iovals_dict, iospec_dict, nonetype_ok=True). -/
def confirmTypeDict (p : IOProcessor) (iovalsDict : Obj) (iospecDict : List (Key × Obj))
    (nOk : Bool := true) : Except CErr Unit :=
  confirmTypeDictCore (fun v s => confirmTypeIoval p v s nOk) iovalsDict iospecDict

/-- Embeds confirm_type_list(iovals_list, iospec_obj): None values are not
    permitted exactly when a ListOf is expected. -/
def confirmTypeList (p : IOProcessor) (iovalsList iospecObj : Obj) : Except CErr Unit :=
  match iovalsList with
  | .vList xs =>
    match makeDictFromListlike iospecObj (some xs.length) with
    | .error e => .error (.py e)
    | .ok ispec =>
      let elemNOk : Bool := match iospecObj with | .listOf _ => false | _ => true
      confirmTypeDict p (.vDict (enumDict xs)) ispec elemNOk
  | v => .error (.wrong (.pair iospecObj v.typeOf))

-- ----------------------------- Coercion engine ----------------------------

/-- Embeds the loop of coerce_dict: keys present in the spec are coerced,
    keys absent from the spec are copied through unchanged. -/
def coerceEntries (co : Obj → Obj → Except PyErr Obj) :
    List (Key × Obj) → List (Key × Obj) → Except PyErr (List (Key × Obj))
  | [], _ => .ok []
  | (k, v) :: rest, ispec =>
    match ispec.lookup k with
    | none =>
      match coerceEntries co rest ispec with
      | .error e => .error e
      | .ok tail => .ok ((k, v) :: tail)
    | some s =>
      match co v s with
      | .error e => .error e
      | .ok r =>
        match coerceEntries co rest ispec with
        | .error e => .error e
        | .ok tail => .ok ((k, r) :: tail)

/-- Embeds coerce_dict, parameterized by the recursive per-value coercion.
    coerce_dict has no isinstance guard: iterating a non-dict value raises
    AttributeError. -/
def coerceDictCore (co : Obj → Obj → Except PyErr Obj) (ioval : Obj)
    (ispec : List (Key × Obj)) : Except PyErr (List (Key × Obj)) :=
  match ioval with
  | .vDict dv => coerceEntries co dv ispec
  | _ => .error .attributeError

/-- Fueled embedding of coerce_ioval / coerce_dict / coerce_list.  In the
    sequence branch a value that is not a plain sequence is embedded as the
    TypeError of len(); the degenerate Python behavior on sized non-sequence
    values there (a dict or str value against a sequence schema, where the
    source would enumerate dict keys or characters) is outside the embedded
    domain and is mapped to the same TypeError; no claim concerns it. -/
def coerceFuel : Nat → IOProcessor → Obj → Obj → Except PyErr Obj
  | 0, _, v, _ => .ok v
  | n + 1, p, ioval, expected =>
    match expected with
    | .vDict ds =>
      match coerceDictCore (coerceFuel n p) ioval ds with
      | .error e => .error e
      | .ok res => .ok (.vDict res)
    | .vList _ | .listOf _ =>
      match ioval with
      | .vList xs =>
        match makeDictFromListlike expected (some xs.length) with
        | .error e => .error e
        | .ok ispec =>
          match coerceDictCore (coerceFuel n p) (.vDict (enumDict xs)) ispec with
          | .error e => .error e
          | .ok rd => .ok (.vList ((sortKeys (rd.map Prod.fst)).map (fun k => getNP rd k)))
      | _ => .error .typeError
    | expected =>
      match tableLookup p.coercionFns expected with
      | none => .ok ioval
      | some f =>
        match f ioval expected with
        | .ret v => .ok v
        | .success v => .ok v

/-- Embeds coerce_ioval(ioval, expected_type). -/
def coerceIoval (p : IOProcessor) (ioval expected : Obj) : Except PyErr Obj :=
  coerceFuel (depth ioval + depth expected) p ioval expected

/-- Embeds coerce_dict(iovals_dict, iospec). -/
def coerceDict (p : IOProcessor) (iovalsDict : Obj) (iospec : List (Key × Obj)) :
    Except PyErr (List (Key × Obj)) :=
  coerceDictCore (fun v s => coerceIoval p v s) iovalsDict iospec

/-- Embeds coerce_list(iovals_list, iospec_obj): normalize to positional
    dicts, coerce as a dict, reassemble ordered by sorted numeric index. -/
def coerceList (p : IOProcessor) (iovalsList iospecObj : Obj) : Except PyErr (List Obj) :=
  match iovalsList with
  | .vList xs =>
    match makeDictFromListlike iospecObj (some xs.length) with
    | .error e => .error e
    | .ok ispec =>
      match coerceDict p (.vDict (enumDict xs)) ispec with
      | .error e => .error e
      | .ok rd => .ok ((sortKeys (rd.map Prod.fst)).map (fun k => getNP rd k))
  | _ => .error .typeError

-- ------------- Fuel irrelevance for confirmation and coercion -------------

theorem collectWrongs_congr {c1 c2 : Obj → Obj → Except CErr Unit}
    {dv ispec : List (Key × Obj)}
    (h : ∀ k v s, (k, v) ∈ dv → ispec.lookup k = some s → c1 v s = c2 v s) :
    collectWrongs c1 dv ispec = collectWrongs c2 dv ispec := by
  induction dv with
  | nil => rfl
  | cons e rest ih =>
    obtain ⟨k, v⟩ := e
    have hrest : ∀ k v s, (k, v) ∈ rest → ispec.lookup k = some s → c1 v s = c2 v s :=
      fun k v s hm hl => h k v s (List.mem_cons_of_mem _ hm) hl
    cases hl : ispec.lookup k with
    | none =>
      simp only [collectWrongs, hl]
      exact ih hrest
    | some s =>
      simp only [collectWrongs, hl]
      rw [h k v s (List.mem_cons_self _ _) hl, ih hrest]

theorem confirmTypeDictCore_congr {c1 c2 : Obj → Obj → Except CErr Unit}
    {ioval : Obj} {ispec : List (Key × Obj)}
    (h : ∀ dv, ioval = .vDict dv →
      ∀ k v s, (k, v) ∈ dv → ispec.lookup k = some s → c1 v s = c2 v s) :
    confirmTypeDictCore c1 ioval ispec = confirmTypeDictCore c2 ioval ispec := by
  cases ioval <;> try rfl
  case vDict dv =>
    simp only [confirmTypeDictCore]
    rw [collectWrongs_congr (h dv rfl)]

theorem lookup_depth_le {d : List (Key × Obj)} {k : Key} {s : Obj}
    (h : d.lookup k = some s) : depth s ≤ depth.depthEntries d :=
  depth_le_depthEntries (lookup_mem h)

theorem confirmFuel_congr :
    ∀ n m p nOk a b, depth a + depth b ≤ n → depth a + depth b ≤ m →
      confirmFuel n p nOk a b = confirmFuel m p nOk a b := by
  intro n
  induction n using Nat.strong_induction_on with
  | _ n ih =>
    intro m p nOk a b hn hm
    have ha := depth_pos a
    have hb := depth_pos b
    obtain ⟨n1, rfl⟩ : ∃ k, n = k + 1 := ⟨n - 1, by omega⟩
    obtain ⟨m1, rfl⟩ : ∃ k, m = k + 1 := ⟨m - 1, by omega⟩
    cases b <;> try rfl
    case vDict ds =>
      show confirmTypeDictCore (fun v s => confirmFuel n1 p true v s) a ds
          = confirmTypeDictCore (fun v s => confirmFuel m1 p true v s) a ds
      apply confirmTypeDictCore_congr
      intro dv hdv k v s hmem hl
      have h1 : depth v ≤ depth.depthEntries dv := depth_le_depthEntries hmem
      have h2 : depth s ≤ depth.depthEntries ds := lookup_depth_le hl
      subst hdv
      simp only [depth] at hn hm
      exact ih n1 (by omega) m1 p true v s (by omega) (by omega)
    case vList ss =>
      cases a <;> try rfl
      case vList xs =>
        show confirmTypeDictCore (fun v s => confirmFuel n1 p true v s)
            (.vDict (enumDict xs)) (enumDict ss)
          = confirmTypeDictCore (fun v s => confirmFuel m1 p true v s)
            (.vDict (enumDict xs)) (enumDict ss)
        apply confirmTypeDictCore_congr
        intro dv hdv k v s hmem hl
        have hdv2 : dv = enumDict xs := by
          injection hdv with hh
          exact hh.symm
        subst hdv2
        have h1 : depth v ≤ depth.depthList xs := by
          have := depth_le_depthEntries hmem
          rwa [enumDict, depthEntries_pyEnum] at this
        have h2 : depth s ≤ depth.depthList ss := by
          have := lookup_depth_le hl
          rwa [enumDict, depthEntries_pyEnum] at this
        simp only [depth] at hn hm
        exact ih n1 (by omega) m1 p true v s (by omega) (by omega)
    case listOf sp =>
      cases a <;> try rfl
      case vList xs =>
        show confirmTypeDictCore (fun v s => confirmFuel n1 p false v s)
            (.vDict (enumDict xs)) ((List.range xs.length).map (fun i => (Key.kInt i, sp)))
          = confirmTypeDictCore (fun v s => confirmFuel m1 p false v s)
            (.vDict (enumDict xs)) ((List.range xs.length).map (fun i => (Key.kInt i, sp)))
        apply confirmTypeDictCore_congr
        intro dv hdv k v s hmem hl
        have hdv2 : dv = enumDict xs := by
          injection hdv with hh
          exact hh.symm
        subst hdv2
        have h1 : depth v ≤ depth.depthList xs := by
          have := depth_le_depthEntries hmem
          rwa [enumDict, depthEntries_pyEnum] at this
        have h2 : depth s < depth (Obj.listOf sp) := by
          have hmem2 := lookup_mem hl
          obtain ⟨i, _, hiv⟩ := List.mem_map.1 hmem2
          cases hiv
          simp only [depth]
          omega
        simp only [depth] at hn hm h2
        exact ih n1 (by omega) m1 p false v s (by omega) (by omega)

theorem confirmFuel_eq {n : Nat} {p : IOProcessor} {nOk : Bool} {a b : Obj}
    (h : depth a + depth b ≤ n) :
    confirmFuel n p nOk a b = confirmTypeIoval p a b nOk :=
  confirmFuel_congr n (depth a + depth b) p nOk a b h (Nat.le_refl _)

/-- Recursion equation: confirm_type_ioval on a mapping schema delegates to
    confirm_type_dict with the default nonetype_ok=True (the incoming flag
    is not forwarded). -/
theorem confirmTypeIoval_dict (p : IOProcessor) (a : Obj) (ds : List (Key × Obj))
    (nOk : Bool) :
    confirmTypeIoval p a (.vDict ds) nOk = confirmTypeDict p a ds := by
  show confirmTypeDictCore
      (fun v s => confirmFuel (depth a + depth.depthEntries ds) p true v s) a ds
    = confirmTypeDictCore (fun v s => confirmTypeIoval p v s true) a ds
  apply confirmTypeDictCore_congr
  intro dv hdv k v s hmem hl
  have h1 : depth v ≤ depth.depthEntries dv := depth_le_depthEntries hmem
  have h2 : depth s ≤ depth.depthEntries ds := lookup_depth_le hl
  subst hdv
  simp only [depth] at h1 ⊢
  exact confirmFuel_eq (by omega)

/-- Recursion equation: confirm_type_ioval on a plain sequence schema
    delegates to confirm_type_list. -/
theorem confirmTypeIoval_list (p : IOProcessor) (a : Obj) (ss : List Obj)
    (nOk : Bool) :
    confirmTypeIoval p a (.vList ss) nOk = confirmTypeList p a (.vList ss) := by
  cases a <;> try rfl
  case vList xs =>
    show confirmTypeDictCore
        (fun v s => confirmFuel (depth.depthList xs + 1 + depth.depthList ss) p true v s)
        (.vDict (enumDict xs)) (enumDict ss)
      = confirmTypeDictCore (fun v s => confirmTypeIoval p v s true)
        (.vDict (enumDict xs)) (enumDict ss)
    apply confirmTypeDictCore_congr
    intro dv hdv k v s hmem hl
    have hdv2 : dv = enumDict xs := by
      injection hdv with hh
      exact hh.symm
    subst hdv2
    have h1 : depth v ≤ depth.depthList xs := by
      have := depth_le_depthEntries hmem
      rwa [enumDict, depthEntries_pyEnum] at this
    have h2 : depth s ≤ depth.depthList ss := by
      have := lookup_depth_le hl
      rwa [enumDict, depthEntries_pyEnum] at this
    exact confirmFuel_eq (by omega)

/-- Recursion equation: confirm_type_ioval on a ListOf schema delegates to
    confirm_type_list (which forces nonetype_ok=False for the elements). -/
theorem confirmTypeIoval_listOf (p : IOProcessor) (a sp : Obj) (nOk : Bool) :
    confirmTypeIoval p a (.listOf sp) nOk = confirmTypeList p a (.listOf sp) := by
  cases a <;> try rfl
  case vList xs =>
    show confirmTypeDictCore
        (fun v s => confirmFuel (depth.depthList xs + 1 + depth sp) p false v s)
        (.vDict (enumDict xs)) ((List.range xs.length).map (fun i => (Key.kInt i, sp)))
      = confirmTypeDictCore (fun v s => confirmTypeIoval p v s false)
        (.vDict (enumDict xs)) ((List.range xs.length).map (fun i => (Key.kInt i, sp)))
    apply confirmTypeDictCore_congr
    intro dv hdv k v s hmem hl
    have hdv2 : dv = enumDict xs := by
      injection hdv with hh
      exact hh.symm
    subst hdv2
    have h1 : depth v ≤ depth.depthList xs := by
      have := depth_le_depthEntries hmem
      rwa [enumDict, depthEntries_pyEnum] at this
    have h2 : depth s ≤ depth sp := by
      have hmem2 := lookup_mem hl
      obtain ⟨i, _, hiv⟩ := List.mem_map.1 hmem2
      cases hiv
      exact Nat.le_refl _
    exact confirmFuel_eq (by omega)

theorem coerceEntries_congr {c1 c2 : Obj → Obj → Except PyErr Obj}
    {dv ispec : List (Key × Obj)}
    (h : ∀ k v s, (k, v) ∈ dv → ispec.lookup k = some s → c1 v s = c2 v s) :
    coerceEntries c1 dv ispec = coerceEntries c2 dv ispec := by
  induction dv with
  | nil => rfl
  | cons e rest ih =>
    obtain ⟨k, v⟩ := e
    have hrest : ∀ k v s, (k, v) ∈ rest → ispec.lookup k = some s → c1 v s = c2 v s :=
      fun k v s hm hl => h k v s (List.mem_cons_of_mem _ hm) hl
    simp only [coerceEntries]
    cases hl : ispec.lookup k with
    | none =>
      simp only [coerceEntries, hl]
      rw [ih hrest]
    | some s =>
      simp only [coerceEntries, hl]
      rw [h k v s (List.mem_cons_self _ _) hl, ih hrest]

theorem coerceDictCore_congr {c1 c2 : Obj → Obj → Except PyErr Obj}
    {ioval : Obj} {ispec : List (Key × Obj)}
    (h : ∀ dv, ioval = .vDict dv →
      ∀ k v s, (k, v) ∈ dv → ispec.lookup k = some s → c1 v s = c2 v s) :
    coerceDictCore c1 ioval ispec = coerceDictCore c2 ioval ispec := by
  cases ioval <;> try rfl
  case vDict dv =>
    simp only [coerceDictCore]
    exact coerceEntries_congr (h dv rfl)

theorem coerceFuel_congr :
    ∀ n m p a b, depth a + depth b ≤ n → depth a + depth b ≤ m →
      coerceFuel n p a b = coerceFuel m p a b := by
  intro n
  induction n using Nat.strong_induction_on with
  | _ n ih =>
    intro m p a b hn hm
    have ha := depth_pos a
    have hb := depth_pos b
    obtain ⟨n1, rfl⟩ : ∃ k, n = k + 1 := ⟨n - 1, by omega⟩
    obtain ⟨m1, rfl⟩ : ∃ k, m = k + 1 := ⟨m - 1, by omega⟩
    cases b <;> try rfl
    case vDict ds =>
      have hcore : coerceDictCore (coerceFuel n1 p) a ds
          = coerceDictCore (coerceFuel m1 p) a ds := by
        apply coerceDictCore_congr
        intro dv hdv k v s hmem hl
        have h1 : depth v ≤ depth.depthEntries dv := depth_le_depthEntries hmem
        have h2 : depth s ≤ depth.depthEntries ds := lookup_depth_le hl
        subst hdv
        simp only [depth] at hn hm
        exact ih n1 (by omega) m1 p v s (by omega) (by omega)
      show (match coerceDictCore (coerceFuel n1 p) a ds with
            | .error e => .error e
            | .ok res => .ok (.vDict res) : Except PyErr Obj)
          = (match coerceDictCore (coerceFuel m1 p) a ds with
            | .error e => .error e
            | .ok res => .ok (.vDict res) : Except PyErr Obj)
      rw [hcore]
    case vList ss =>
      cases a <;> try rfl
      case vList xs =>
        have hcore : coerceDictCore (coerceFuel n1 p) (.vDict (enumDict xs)) (enumDict ss)
            = coerceDictCore (coerceFuel m1 p) (.vDict (enumDict xs)) (enumDict ss) := by
          apply coerceDictCore_congr
          intro dv hdv k v s hmem hl
          have hdv2 : dv = enumDict xs := by
            injection hdv with hh
            exact hh.symm
          subst hdv2
          have h1 : depth v ≤ depth.depthList xs := by
            have := depth_le_depthEntries hmem
            rwa [enumDict, depthEntries_pyEnum] at this
          have h2 : depth s ≤ depth.depthList ss := by
            have := lookup_depth_le hl
            rwa [enumDict, depthEntries_pyEnum] at this
          simp only [depth] at hn hm
          exact ih n1 (by omega) m1 p v s (by omega) (by omega)
        show (match coerceDictCore (coerceFuel n1 p) (.vDict (enumDict xs)) (enumDict ss) with
              | .error e => .error e
              | .ok rd => .ok (.vList ((sortKeys (rd.map Prod.fst)).map (fun k => getNP rd k)))
              : Except PyErr Obj)
            = (match coerceDictCore (coerceFuel m1 p) (.vDict (enumDict xs)) (enumDict ss) with
              | .error e => .error e
              | .ok rd => .ok (.vList ((sortKeys (rd.map Prod.fst)).map (fun k => getNP rd k)))
              : Except PyErr Obj)
        rw [hcore]
    case listOf sp =>
      cases a <;> try rfl
      case vList xs =>
        have hcore : coerceDictCore (coerceFuel n1 p) (.vDict (enumDict xs))
              ((List.range xs.length).map (fun i => (Key.kInt i, sp)))
            = coerceDictCore (coerceFuel m1 p) (.vDict (enumDict xs))
              ((List.range xs.length).map (fun i => (Key.kInt i, sp))) := by
          apply coerceDictCore_congr
          intro dv hdv k v s hmem hl
          have hdv2 : dv = enumDict xs := by
            injection hdv with hh
            exact hh.symm
          subst hdv2
          have h1 : depth v ≤ depth.depthList xs := by
            have := depth_le_depthEntries hmem
            rwa [enumDict, depthEntries_pyEnum] at this
          have h2 : depth s ≤ depth sp := by
            have hmem2 := lookup_mem hl
            obtain ⟨i, _, hiv⟩ := List.mem_map.1 hmem2
            cases hiv
            exact Nat.le_refl _
          simp only [depth] at hn hm
          exact ih n1 (by omega) m1 p v s (by omega) (by omega)
        show (match coerceDictCore (coerceFuel n1 p) (.vDict (enumDict xs))
                ((List.range xs.length).map (fun i => (Key.kInt i, sp))) with
              | .error e => .error e
              | .ok rd => .ok (.vList ((sortKeys (rd.map Prod.fst)).map (fun k => getNP rd k)))
              : Except PyErr Obj)
            = (match coerceDictCore (coerceFuel m1 p) (.vDict (enumDict xs))
                ((List.range xs.length).map (fun i => (Key.kInt i, sp))) with
              | .error e => .error e
              | .ok rd => .ok (.vList ((sortKeys (rd.map Prod.fst)).map (fun k => getNP rd k)))
              : Except PyErr Obj)
        rw [hcore]

theorem coerceFuel_eq {n : Nat} {p : IOProcessor} {a b : Obj}
    (h : depth a + depth b ≤ n) :
    coerceFuel n p a b = coerceIoval p a b :=
  coerceFuel_congr n (depth a + depth b) p a b h (Nat.le_refl _)

-- --------------------------- Unlimited policy -----------------------------

/-- Embeds `ikey in iospec_dict`. -/
def containsKey (d : List (Key × Obj)) (k : Key) : Bool := (d.lookup k).isSome

/-- Embeds filter_unlimited(unknown, combined_iospec): keep only the unknown
    entries whose top-level key occurs in the combined iospec.  A sequence or
    ListOf iospec is first normalized to a positional dict sized by the
    number of unknown entries.  When the combined iospec is a bare class
    (AnyType or a type handle), the membership test `ikey in iospec` raises
    TypeError; that point is unreachable from verify because the unknown diff
    against a non-container iospec is always NoDifference.  A non-dict
    unknown value (impossible output of the diff engine) would fail on
    unknown.items() with AttributeError. -/
def filterUnlimited (unknown : DiffResult) (combined : Obj) : Except PyErr DiffResult :=
  match unknown with
  | .noDiff => .ok .noDiff
  | .dict u =>
    match u with
    | [] => .ok .noDiff
    | _ =>
      match (if combined.isSeqOrListOfC then makeDictFromListlike combined (some u.length)
             else match combined with
               | .vDict ds => .ok ds
               | _ => .error .typeError : Except PyErr (List (Key × Obj))) with
      | .error e => .error e
      | .ok ispecDict =>
        match u.filter (fun e => containsKey ispecDict e.1) with
        | [] => .ok .noDiff
        | res => .ok (.dict res)
  | _ => .error .attributeError

-- ------------------------- Error message rendering ------------------------

/-- The __name__ attribute of the builtin and model classes. -/
def handleName : TypeHandle → String
  | .tInt => "int"
  | .tBool => "bool"
  | .tStr => "str"
  | .tNoneType => "NoneType"
  | .tList => "list"
  | .tDict => "dict"
  | .tType => "type"
  | .tListOfCls => "ListOf"
  | .tCustom c => "C" ++ toString c

/-- Embeds repr(key) as it appears inside a rendered dict. -/
def reprKey : Key → String
  | .kStr s => "\x27" ++ s ++ "\x27"
  | .kInt n => toString n

/-- Embeds repr(x) (same as str(x) for the objects appearing in error
    messages).  Python renders an instance of a user class with its memory
    address; the embedding uses a deterministic placeholder, which no claim
    depends on. -/
def strOfObj : Obj → String
  | .vInt n => toString n
  | .vBool b => if b then "True" else "False"
  | .vStr s => "\x27" ++ s ++ "\x27"
  | .vNone => "None"
  | .vCustom c i => "<C" ++ toString c ++ " instance " ++ toString i ++ ">"
  | .vList xs => "[" ++ strOfList xs ++ "]"
  | .vDict es => "\x7b" ++ strOfEntries es ++ "\x7d"
  | .handle t => "<class \x27" ++ handleName t ++ "\x27>"
  | .anyType => "<class \x27AnyType\x27>"
  | .listOf s => "ListOf(" ++ strOfObj s ++ ")"
  | .notProvided => "<class \x27NotProvided\x27>"
where
  strOfList : List Obj → String
    | [] => ""
    | [x] => strOfObj x
    | x :: xs => strOfObj x ++ ", " ++ strOfList xs
  strOfEntries : List (Key × Obj) → String
    | [] => ""
    | [(k, v)] => reprKey k ++ ": " ++ strOfObj v
    | (k, v) :: es => reprKey k ++ ": " ++ strOfObj v ++ ", " ++ strOfEntries es

/-- The __name__ attribute of a schema node, none when the attribute is
    missing (AttributeError on access).  A ListOf carries the __name__
    computed in its constructor: ListOf(...) around str(obj) for a container
    argument and around obj.__name__ otherwise (a ListOf of a nameless
    object cannot exist, since its constructor would already have failed;
    the "?" fallback is unreachable). -/
def objName : Obj → Option String
  | .handle t => some (handleName t)
  | .anyType => some "AnyType"
  | .notProvided => some "NotProvided"
  | .listOf s => some ("ListOf(" ++ (match s with
      | .vDict _ | .vList _ => strOfObj s
      | s2 => (objName s2).getD "?") ++ ")")
  | _ => none

/-- Embeds TypeNameRepresentation: the None schema leaf renders as <None>;
    any other leaf renders its __name__ in angle brackets, raising
    AttributeError when there is no __name__ (for example a plain sequence
    schema node recorded whole in the missing diff). -/
def typeNameRepr (v : Obj) : Except PyErr String :=
  match v with
  | .vNone => .ok "<None>"
  | v =>
    match objName v with
    | some s => .ok ("<" ++ s ++ ">")
    | none => .error .attributeError

/-- Embeds str() of an unknown-diff result (a dict of recorded leaves and
    UnknownContainer markers). -/
def strOfDiff : DiffResult → String
  | .noDiff => "<class \x27NoDifference\x27>"
  | .leaf v => strOfObj v
  | .unknownContainer d => if d then "\x7b...\x7d" else "[...]"
  | .dict es => "\x7b" ++ strOfDiffEntries es ++ "\x7d"
where
  strOfDiffEntries : List (Key × DiffResult) → String
    | [] => ""
    | [(k, r)] => reprKey k ++ ": " ++ strOfDiff r
    | (k, r) :: es => reprKey k ++ ": " ++ strOfDiff r ++ ", " ++ strOfDiffEntries es

/-- Embeds str() of a wrong-type failure result.  A WrongTypePair renders the
    __name__ of each half, falling back to the name of its type (so a plain
    sequence schema node renders as list, while a ListOf instance renders its
    own __name__). -/
def strOfWrong : WrongTypeResult → String
  | .pair e g =>
      "(expected \x27" ++ (objName e).getD (handleName e.typeOf) ++ "\x27; got \x27"
        ++ handleName g ++ "\x27)"
  | .dict es => "\x7b" ++ strOfWrongEntries es ++ "\x7d"
where
  strOfWrongEntries : List (Key × WrongTypeResult) → String
    | [] => ""
    | [(k, r)] => reprKey k ++ ": " ++ strOfWrong r
    | (k, r) :: es => reprKey k ++ ": " ++ strOfWrong r ++ ", " ++ strOfWrongEntries es

/-- Embeds make_missing_output / make_missing_output_dict composed with the
    final str(): NoDifference becomes None (rendered as an absent section);
    a dict of missing leaves renders each leaf through
    TypeNameRepresentation, which raises AttributeError for leaves without a
    __name__.  (Python builds the output object first and stringifies later;
    the error points coincide.) -/
def makeMissingOutput : DiffResult → Except PyErr (Option String)
  | .noDiff => .ok none
  | .dict es =>
    match missingEntries es with
    | .error e => .error e
    | .ok s => .ok (some ("\x7b" ++ s ++ "\x7d"))
  | .leaf v =>
    match typeNameRepr v with
    | .error e => .error e
    | .ok s => .ok (some s)
  | .unknownContainer _ => .error .attributeError
where
  missingValue : DiffResult → Except PyErr String
    | .noDiff => .ok "None"
    | .dict es =>
      match missingEntries es with
      | .error e => .error e
      | .ok s => .ok ("\x7b" ++ s ++ "\x7d")
    | .leaf v => typeNameRepr v
    | .unknownContainer _ => .error .attributeError
  missingEntries : List (Key × DiffResult) → Except PyErr String
    | [] => .ok ""
    | [(k, r)] =>
      match missingValue r with
      | .error e => .error e
      | .ok s => .ok (reprKey k ++ ": " ++ s)
    | (k, r) :: es =>
      match missingValue r with
      | .error e => .error e
      | .ok s =>
        match missingEntries es with
        | .error e => .error e
        | .ok t => .ok (reprKey k ++ ": " ++ s ++ ", " ++ t)

-- ---------------------------- Processor facade ----------------------------

/-- An exception escaping verify: the VerificationFailureError with its
    composed message, or an uncaught Python error. -/
inductive VErr where
  | failure (msg : String)
  | py (e : PyErr)

/-- Embeds IOProcessor.verify(iovalue): build the combined iospec, compute
    the missing and unknown diffs, apply the unlimited policy, run type
    confirmation, and either return or raise one VerificationFailureError
    whose message is the error_msg prefix followed by the non-empty sections.
    The truthiness test `if output_part and output_part is not NoDifference`
    is on the rendered objects: None and an empty dict are falsy; the
    rendering of an empty dict is exactly the two braces, so the string
    comparison below encodes dict truthiness faithfully (an empty missing
    dict cannot actually arise). -/
def IOProcessor.verify (p : IOProcessor) (iovalue : Obj) : Except VErr Unit :=
  let combined := combineIospecs p.required p.optional
  match differenceIoval false p.required iovalue with
  | .error e => .error (.py e)
  | .ok missing =>
    match differenceIoval true iovalue combined with
    | .error e => .error (.py e)
    | .ok unknown0 =>
      match (if p.unlimited then filterUnlimited unknown0 combined else .ok unknown0) with
      | .error e => .error (.py e)
      | .ok unknown =>
        match (match confirmTypeIoval p iovalue combined with
               | .ok _ => .ok none
               | .error (.wrong w) => .ok (some w)
               | .error (.py e) => .error e : Except PyErr (Option WrongTypeResult)) with
        | .error e => .error (.py e)
        | .ok wrongTypes =>
          match missing, unknown, wrongTypes with
          | .noDiff, .noDiff, none => .ok ()
          | _, _, _ =>
            match makeMissingOutput missing with
            | .error e => .error (.py e)
            | .ok missingOut =>
              let parts : List String :=
                (match missingOut with
                 | some s => if s = "\x7b\x7d" then [] else ["Missing: " ++ s]
                 | none => []) ++
                (match unknown with
                 | .noDiff => []
                 | .dict [] => []
                 | u => ["Not allowed: " ++ strOfDiff u]) ++
                (match wrongTypes with
                 | none => []
                 | some (.dict []) => []
                 | some w => ["Wrong type: " ++ strOfWrong w])
              .error (.failure (String.intercalate "\n" (p.errorMsg :: parts)))

/-- Embeds IOProcessor.coerce(iovalue): build the combined iospec and coerce
    against it. -/
def IOProcessor.coerce (p : IOProcessor) (iovalue : Obj) : Except PyErr Obj :=
  coerceIoval p iovalue (combineIospecs p.required p.optional)

-- ---------------------------- Manager facade ------------------------------

/-- An exception escaping the directional facade: the directional
    verification failure with the same message, or an uncaught Python error
    (which the facade does not convert). -/
inductive MErr where
  | inputFailure (msg : String)
  | outputFailure (msg : String)
  | py (e : PyErr)

structure IOManager where
  inputProcessor : IOProcessor
  outputProcessor : IOProcessor

/-- Embeds the tail of IOManager.__init__: the two processors are
    constructed with the fixed error_msg prefixes (the keyword-merging
    plumbing above it only assembles the other constructor arguments). -/
def mkIOManager (inputP outputP : IOProcessor) : IOManager :=
  { inputProcessor := { inputP with errorMsg := "Invalid input." }
    outputProcessor := { outputP with errorMsg := "Invalid output." } }

/-- Embeds IOManager.verify_input: re-raise a VerificationFailureError as
    InputVerificationFailureError with the same arguments; anything else
    propagates. -/
def IOManager.verifyInput (m : IOManager) (v : Obj) : Except MErr Unit :=
  match m.inputProcessor.verify v with
  | .ok u => .ok u
  | .error (.failure msg) => .error (.inputFailure msg)
  | .error (.py e) => .error (.py e)

/-- Embeds IOManager.verify_output. -/
def IOManager.verifyOutput (m : IOManager) (v : Obj) : Except MErr Unit :=
  match m.outputProcessor.verify v with
  | .ok u => .ok u
  | .error (.failure msg) => .error (.outputFailure msg)
  | .error (.py e) => .error (.py e)

end IOMgr

/-!
Embedding of the default coercion functions of the legacy ioprocess module
(src/ioprocess/ioprocess.py): the uuid pair serializes a UUID to its
canonical dashed lowercase hex string and parses it back through the uuid
library; the datetime pair serializes through datetime.isoformat() and
parses back through dateutil.parser.parse.
-/

namespace IOProc

/-- Exactly `k` base-`b` digits of `n`, least significant first. -/
def toDigitsLE (b : Nat) : Nat → Nat → List Nat
  | 0, _ => []
  | k + 1, n => (n % b) :: toDigitsLE b k (n / b)

/-- Value of a little-endian digit list. -/
def valueLE (b : Nat) : List Nat → Nat
  | [] => 0
  | d :: ds => d + b * valueLE b ds

/-- Value of a big-endian digit list (the accumulator fold a parser uses). -/
def valueBE (b : Nat) (ds : List Nat) : Nat := ds.foldl (fun acc d => acc * b + d) 0

theorem length_toDigitsLE (b : Nat) : ∀ k n, (toDigitsLE b k n).length = k := by
  intro k
  induction k with
  | zero => intro n; rfl
  | succ k ih => intro n; simp [toDigitsLE, ih]

theorem mem_toDigitsLE_lt {b : Nat} (hb : 0 < b) :
    ∀ k n d, d ∈ toDigitsLE b k n → d < b := by
  intro k
  induction k with
  | zero => intro n d h; cases h
  | succ k ih =>
    intro n d h
    rcases List.mem_cons.1 h with rfl | h
    · exact Nat.mod_lt _ hb
    · exact ih _ _ h

theorem valueLE_toDigitsLE {b : Nat} (_hb : 2 ≤ b) :
    ∀ k n, n < b ^ k → valueLE b (toDigitsLE b k n) = n := by
  intro k
  induction k with
  | zero =>
    intro n h
    simp [Nat.pow_zero] at h
    simp [toDigitsLE, valueLE, h]
  | succ k ih =>
    intro n h
    have hdiv : n / b < b ^ k := by
      apply Nat.div_lt_of_lt_mul
      rwa [Nat.pow_succ, Nat.mul_comm] at h
    simp only [toDigitsLE, valueLE, ih _ hdiv]
    exact Nat.mod_add_div n b

theorem valueBE_append (b : Nat) (l : List Nat) (d : Nat) :
    valueBE b (l ++ [d]) = valueBE b l * b + d := by
  simp [valueBE, List.foldl_append]

theorem valueBE_reverse (b : Nat) : ∀ ds, valueBE b ds.reverse = valueLE b ds := by
  intro ds
  induction ds with
  | nil => rfl
  | cons d ds ih =>
    simp only [List.reverse_cons, valueBE_append, ih, valueLE]
    ring

theorem valueBE_reverse_toDigits {b k n : Nat} (hb : 2 ≤ b) (h : n < b ^ k) :
    valueBE b (toDigitsLE b k n).reverse = n := by
  rw [valueBE_reverse, valueLE_toDigitsLE hb _ _ h]

/-- Lowercase hex digit character. -/
def hexChar (d : Nat) : Char := if d < 10 then Char.ofNat (48 + d) else Char.ofNat (87 + d)

/-- Value of a hex digit character (int(s, 16) accepts both cases). -/
def hexVal (c : Char) : Option Nat :=
  if 48 ≤ c.toNat ∧ c.toNat ≤ 57 then some (c.toNat - 48)
  else if 97 ≤ c.toNat ∧ c.toNat ≤ 102 then some (c.toNat - 87)
  else if 65 ≤ c.toNat ∧ c.toNat ≤ 70 then some (c.toNat - 55)
  else none

theorem hexVal_hexChar {d : Nat} (h : d < 16) : hexVal (hexChar d) = some d := by
  interval_cases d <;> decide

theorem hexChar_ne_dash {d : Nat} (h : d < 16) : hexChar d ≠ '-' := by
  interval_cases d <;> decide

/-- Big-endian hex digit characters of `n`, exactly `k` of them. -/
def charsOfHex (k n : Nat) : List Char := (toDigitsLE 16 k n).reverse.map hexChar

/-- Embeds str(uuid.UUID): the 32-digit lowercase hex form of the 128-bit
    integer, with dashes in the canonical 8-4-4-4-12 pattern. -/
def uuidStr (n : Nat) : String :=
  let h := charsOfHex 32 n
  String.mk (h.take 8 ++ '-' :: (h.drop 8).take 4 ++ '-' :: (h.drop 12).take 4
    ++ '-' :: (h.drop 16).take 4 ++ '-' :: h.drop 20)

/-- Parse a list of hex digit characters. -/
def hexValsM : List Char → Option (List Nat)
  | [] => some []
  | c :: cs =>
    match hexVal c, hexValsM cs with
    | some d, some ds => some (d :: ds)
    | _, _ => none

/-- Embeds uuid.UUID(hex): dashes are removed, the rest must be exactly 32
    hex digits, giving the 128-bit integer; anything else raises ValueError
    (none).  The constructor also strips urn:/uuid: prefixes and braces,
    which never occur in the canonical output this claim composes with, so
    the embedding covers the dashed-hex domain. -/
def uuidParse (s : String) : Option Nat :=
  let hx := s.data.filter (fun c => c ≠ '-')
  if hx.length = 32 then
    match hexValsM hx with
    | some ds => some (valueBE 16 ds)
    | none => none
  else none

/-- A naive datetime value (the timezone-free values datetime produces by
    default; all fields validated by the datetime constructor). -/
structure PyDatetime where
  year : Nat
  month : Nat
  day : Nat
  hour : Nat
  minute : Nat
  second : Nat
  microsecond : Nat
deriving DecidableEq

/-- The Python values the ioprocess default coercion functions dispatch on. -/
inductive PVal where
  | pStr (s : String)
  | pInt (n : Int)
  | pNone
  | pUuid (n : Nat)
  | pDatetime (dt : PyDatetime)
  | pOther (id : Nat)
deriving DecidableEq

/-- Embeds coerce_uuid_output: a uuid.UUID instance becomes str(ioval),
    anything else passes through. -/
def coerceUuidOutput : PVal → PVal
  | .pUuid n => .pStr (uuidStr n)
  | v => v

/-- Embeds coerce_uuid_input: a string is parsed with uuid.UUID, staying
    unchanged on ValueError; anything else passes through. -/
def coerceUuidInput : PVal → PVal
  | .pStr s =>
    match uuidParse s with
    | some n => .pUuid n
    | none => .pStr s
  | v => v

/-- Decimal digit character. -/
def decChar (d : Nat) : Char := Char.ofNat (48 + d)

/-- Value of a decimal digit character. -/
def decVal (c : Char) : Option Nat :=
  if 48 ≤ c.toNat ∧ c.toNat ≤ 57 then some (c.toNat - 48) else none

theorem decVal_decChar {d : Nat} (h : d < 10) : decVal (decChar d) = some d := by
  interval_cases d <;> decide

/-- Zero-padded fixed-width decimal rendering. -/
def padDec (k n : Nat) : List Char := (toDigitsLE 10 k n).reverse.map decChar

/-- Embeds datetime.isoformat(): YYYY-MM-DDTHH:MM:SS with a .ffffff part
    exactly when the microsecond field is nonzero. -/
def isoFormatChars (dt : PyDatetime) : List Char :=
  padDec 4 dt.year ++ '-' :: padDec 2 dt.month ++ '-' :: padDec 2 dt.day
    ++ 'T' :: padDec 2 dt.hour ++ ':' :: padDec 2 dt.minute ++ ':' :: padDec 2 dt.second
    ++ (if dt.microsecond = 0 then [] else '.' :: padDec 6 dt.microsecond)

/-- Embeds coerce_datetime_output. -/
def coerceDatetimeOutput : PVal → PVal
  | .pDatetime dt => .pStr (String.mk (isoFormatChars dt))
  | v => v

/-- Read exactly `k` decimal digit characters, folding them onto `acc`. -/
def readDec : Nat → Nat → List Char → Option (Nat × List Char)
  | 0, acc, cs => some (acc, cs)
  | k + 1, acc, cs =>
    match cs with
    | [] => none
    | c :: rest =>
      match decVal c with
      | some d => readDec k (acc * 10 + d) rest
      | none => none

/-- Expect one literal character. -/
def expectChar (c : Char) : List Char → Option (List Char)
  | [] => none
  | c2 :: rest => if c2 = c then some rest else none

/-- The optional fractional-seconds tail of an ISO datetime string. -/
def parseIsoTail (y mo d h mi s : Nat) : List Char → Option PyDatetime
  | [] => some ⟨y, mo, d, h, mi, s, 0⟩
  | '.' :: r2 =>
    match readDec 6 0 r2 with
    | some (us, []) => some ⟨y, mo, d, h, mi, s, us⟩
    | _ => none
  | _ => none

/-- Modelled from the spec: dateutil.parser.parse (an external library not in
    this repository) restricted to the ISO-8601 strings datetime.isoformat()
    emits, which the spec describes as the input-direction parse of the
    canonical timestamp serialization.  Field-range validation is omitted:
    every string this claim feeds in carries fields a datetime value already
    validated. -/
def parseIso (cs : List Char) : Option PyDatetime := do
  let (y, r) ← readDec 4 0 cs
  let r ← expectChar '-' r
  let (mo, r) ← readDec 2 0 r
  let r ← expectChar '-' r
  let (d, r) ← readDec 2 0 r
  let r ← expectChar 'T' r
  let (h, r) ← readDec 2 0 r
  let r ← expectChar ':' r
  let (mi, r) ← readDec 2 0 r
  let r ← expectChar ':' r
  let (s, r) ← readDec 2 0 r
  parseIsoTail y mo d h mi s r

/-- Embeds coerce_datetime_input: a string is parsed with
    dateutil.parser.parse, staying unchanged on ValueError; anything else
    passes through. -/
def coerceDatetimeInput : PVal → PVal
  | .pStr s =>
    match parseIso s.data with
    | some dt => .pDatetime dt
    | none => .pStr s
  | v => v

theorem hexValsM_map {ds : List Nat} (h : ∀ d ∈ ds, d < 16) :
    hexValsM (ds.map hexChar) = some ds := by
  induction ds with
  | nil => rfl
  | cons d ds ih =>
    simp only [List.map_cons, hexValsM, hexVal_hexChar (h d (List.mem_cons_self _ _)),
      ih (fun x hx => h x (List.mem_cons_of_mem _ hx))]

theorem charsOfHex_mem_ne_dash {k n : Nat} {c : Char} (hc : c ∈ charsOfHex k n) :
    ¬(c = '-') := by
  obtain ⟨d, hd, rfl⟩ := List.mem_map.1 hc
  exact hexChar_ne_dash (mem_toDigitsLE_lt (by norm_num) _ _ _ (List.mem_reverse.1 hd))

theorem length_charsOfHex (k n : Nat) : (charsOfHex k n).length = k := by
  simp [charsOfHex, length_toDigitsLE]

theorem filter_sub_charsOfHex {k n : Nat} {l : List Char}
    (hsub : ∀ c ∈ l, c ∈ charsOfHex k n) :
    l.filter (fun c => c ≠ '-') = l := by
  apply List.filter_eq_self.mpr
  intro c hc
  simpa using charsOfHex_mem_ne_dash (hsub c hc)

/-- Round trip through the canonical string: uuid.UUID(str(u)) recovers the
    128-bit integer. -/
theorem uuidParse_uuidStr {n : Nat} (h : n < 2 ^ 128) : uuidParse (uuidStr n) = some n := by
  have h16 : n < 16 ^ 32 := by
    rw [show (16 : Nat) = 2 ^ 4 from rfl, ← pow_mul]
    exact h
  set l : List Char := charsOfHex 32 n with hl
  have hsub1 : ∀ c ∈ l.take 8, c ∈ l := fun c hc => List.mem_of_mem_take hc
  have hsub2 : ∀ m, ∀ c ∈ (l.drop m).take 4, c ∈ l :=
    fun m c hc => List.mem_of_mem_drop (List.mem_of_mem_take hc)
  have hsub3 : ∀ c ∈ l.drop 20, c ∈ l := fun c hc => List.mem_of_mem_drop hc
  have hdata : (uuidStr n).data
      = l.take 8 ++ '-' :: (l.drop 8).take 4 ++ '-' :: (l.drop 12).take 4
        ++ '-' :: (l.drop 16).take 4 ++ '-' :: l.drop 20 := rfl
  have hfilter : (uuidStr n).data.filter (fun c => c ≠ '-') = l := by
    rw [hdata]
    simp only [List.filter_append, List.cons_append, List.filter_cons]
    have hdash : (decide ¬('-' = '-')) = false := by decide
    simp only [hdash, Bool.false_eq_true, if_false]
    rw [filter_sub_charsOfHex hsub1, filter_sub_charsOfHex (hsub2 8),
      filter_sub_charsOfHex (hsub2 12), filter_sub_charsOfHex (hsub2 16),
      filter_sub_charsOfHex hsub3]
    have h1 : (l.drop 16).take 4 ++ l.drop 20 = l.drop 16 := by
      have h2 := List.take_append_drop 4 (l.drop 16)
      rwa [List.drop_drop] at h2
    have h2 : (l.drop 12).take 4 ++ l.drop 16 = l.drop 12 := by
      have h3 := List.take_append_drop 4 (l.drop 12)
      rwa [List.drop_drop] at h3
    have h3 : (l.drop 8).take 4 ++ l.drop 12 = l.drop 8 := by
      have h4 := List.take_append_drop 4 (l.drop 8)
      rwa [List.drop_drop] at h4
    have h4 : l.take 8 ++ l.drop 8 = l := List.take_append_drop 8 l
    rw [List.append_assoc, List.append_assoc, List.append_assoc, h1, h2, h3, h4]
  have hmem : ∀ d ∈ (toDigitsLE 16 32 n).reverse, d < 16 := by
    intro d hd
    exact mem_toDigitsLE_lt (by norm_num) _ _ _ (List.mem_reverse.1 hd)
  rw [uuidParse]
  simp only [hfilter, hl, charsOfHex, List.length_map, List.length_reverse,
    length_toDigitsLE, if_pos, hexValsM_map hmem,
    valueBE_reverse_toDigits (show 2 ≤ 16 by norm_num) h16]

theorem readDec_mapDec :
    ∀ (ds : List Nat) (acc : Nat) (rest : List Char), (∀ d ∈ ds, d < 10) →
      readDec ds.length acc (ds.map decChar ++ rest)
        = some (ds.foldl (fun a d => a * 10 + d) acc, rest) := by
  intro ds
  induction ds with
  | nil => intro acc rest _; rfl
  | cons d ds ih =>
    intro acc rest h
    simp only [List.length_cons, List.map_cons, List.cons_append, readDec,
      decVal_decChar (h d (List.mem_cons_self _ _)), List.foldl_cons]
    exact ih _ _ (fun x hx => h x (List.mem_cons_of_mem _ hx))

theorem readDec_padDec {k n : Nat} (h : n < 10 ^ k) (rest : List Char) :
    readDec k 0 (padDec k n ++ rest) = some (n, rest) := by
  have hlen : ((toDigitsLE 10 k n).reverse).length = k := by
    rw [List.length_reverse, length_toDigitsLE]
  have hmem : ∀ d ∈ (toDigitsLE 10 k n).reverse, d < 10 := by
    intro d hd
    exact mem_toDigitsLE_lt (by norm_num) _ _ _ (List.mem_reverse.1 hd)
  have hrd := readDec_mapDec ((toDigitsLE 10 k n).reverse) 0 rest hmem
  rw [hlen] at hrd
  have hv : ((toDigitsLE 10 k n).reverse).foldl (fun a d => a * 10 + d) 0 = n :=
    valueBE_reverse_toDigits (by norm_num) h
  rw [padDec, hrd, hv]

theorem expectChar_cons (c : Char) (rest : List Char) :
    expectChar c (c :: rest) = some rest := by
  simp [expectChar]

theorem readDec_padDec_nil {k n : Nat} (h : n < 10 ^ k) :
    readDec k 0 (padDec k n) = some (n, []) := by
  have h2 := readDec_padDec h []
  rwa [List.append_nil] at h2

set_option maxHeartbeats 1000000 in
/-- Round trip through the canonical string: dateutil.parser.parse of
    datetime.isoformat() recovers the datetime.  The width bounds hold for
    every value the datetime constructor accepts. -/
theorem parseIso_isoFormat {dt : PyDatetime} (hy : dt.year < 10000)
    (hmo : dt.month < 100) (hd : dt.day < 100) (hh : dt.hour < 100)
    (hmi : dt.minute < 100) (hs : dt.second < 100) (hus : dt.microsecond < 1000000) :
    parseIso (isoFormatChars dt) = some dt := by
  obtain ⟨y, mo, d, h, mi, s, us⟩ := dt
  simp only at hy hmo hd hh hmi hs hus
  have hp4 : (10 : Nat) ^ 4 = 10000 := by norm_num
  have hp2 : (10 : Nat) ^ 2 = 100 := by norm_num
  have hp6 : (10 : Nat) ^ 6 = 1000000 := by norm_num
  have h4 : y < 10 ^ 4 := by omega
  have h2mo : mo < 10 ^ 2 := by omega
  have h2d : d < 10 ^ 2 := by omega
  have h2h : h < 10 ^ 2 := by omega
  have h2mi : mi < 10 ^ 2 := by omega
  have h2s : s < 10 ^ 2 := by omega
  have h6 : us < 10 ^ 6 := by omega
  simp only [isoFormatChars, List.cons_append, List.append_assoc]
  rw [parseIso]
  simp only [Option.bind_eq_bind]
  rw [readDec_padDec h4]
  simp only [Option.some_bind]
  rw [expectChar_cons]
  simp only [Option.some_bind]
  rw [readDec_padDec h2mo]
  simp only [Option.some_bind]
  rw [expectChar_cons]
  simp only [Option.some_bind]
  rw [readDec_padDec h2d]
  simp only [Option.some_bind]
  rw [expectChar_cons]
  simp only [Option.some_bind]
  rw [readDec_padDec h2h]
  simp only [Option.some_bind]
  rw [expectChar_cons]
  simp only [Option.some_bind]
  rw [readDec_padDec h2mi]
  simp only [Option.some_bind]
  rw [expectChar_cons]
  simp only [Option.some_bind]
  by_cases hus0 : us = 0
  · subst hus0
    rw [if_pos rfl, List.append_nil, readDec_padDec_nil h2s]
    simp only [Option.some_bind]
    rfl
  · rw [if_neg hus0, readDec_padDec h2s]
    simp only [Option.some_bind, parseIsoTail]
    rw [readDec_padDec_nil h6]

/-- C8: the default coercions round-trip: for every unique identifier (a
    128-bit uuid value) and every timestamp a datetime value can carry,
    applying the output-direction default coercion and then the
    input-direction default coercion returns the original value. -/
theorem C8_default_coercion_round_trip :
    (∀ n : Nat, n < 2 ^ 128 →
        coerceUuidInput (coerceUuidOutput (.pUuid n)) = .pUuid n)
    ∧ (∀ dt : PyDatetime, dt.year < 10000 → dt.month < 100 → dt.day < 100 →
        dt.hour < 100 → dt.minute < 100 → dt.second < 100 →
        dt.microsecond < 1000000 →
        coerceDatetimeInput (coerceDatetimeOutput (.pDatetime dt)) = .pDatetime dt) := by
  constructor
  · intro n hn
    show (match uuidParse (uuidStr n) with
      | some m => PVal.pUuid m
      | none => .pStr (uuidStr n)) = .pUuid n
    rw [uuidParse_uuidStr hn]
  · intro dt hy hmo hd hh hmi hs hus
    show (match parseIso (String.mk (isoFormatChars dt)).data with
      | some dt2 => PVal.pDatetime dt2
      | none => .pStr (String.mk (isoFormatChars dt))) = .pDatetime dt
    rw [show (String.mk (isoFormatChars dt)).data = isoFormatChars dt from rfl,
      parseIso_isoFormat hy hmo hd hh hmi hs hus]

theorem C8_default_coercion_round_trip_witness :
    ((81985529216486895 : Nat) < 2 ^ 128
      ∧ coerceUuidInput (coerceUuidOutput (.pUuid 81985529216486895))
          = .pUuid 81985529216486895)
    ∧ ((2014 : Nat) < 10000
      ∧ coerceDatetimeInput (coerceDatetimeOutput (.pDatetime ⟨2014, 5, 21, 17, 45, 30, 123456⟩))
          = .pDatetime ⟨2014, 5, 21, 17, 45, 30, 123456⟩) :=
  ⟨⟨by norm_num, C8_default_coercion_round_trip.1 81985529216486895 (by norm_num)⟩,
   ⟨by norm_num, C8_default_coercion_round_trip.2 ⟨2014, 5, 21, 17, 45, 30, 123456⟩
      (by norm_num) (by norm_num) (by norm_num) (by norm_num) (by norm_num)
      (by norm_num) (by norm_num)⟩⟩

end IOProc

namespace IOMgr

-- ----------------- Positional-dict characterization lemmas ----------------

theorem lookup_pyEnum (xs : List Obj) :
    ∀ j i, (pyEnum xs j).lookup (.kInt (j + i)) = xs[i]? := by
  induction xs with
  | nil => intro j i; rfl
  | cons x rest ih =>
    intro j i
    cases i with
    | zero =>
      simp only [pyEnum, Nat.add_zero, List.lookup, beq_self_eq_true]
      simp
    | succ i2 =>
      have hne : (Key.kInt (j + (i2 + 1)) == Key.kInt j) = false := by
        simp only [beq_eq_false_iff_ne, ne_eq, Key.kInt.injEq]
        omega
      simp only [pyEnum, List.lookup, hne]
      have h2 := ih (j + 1) i2
      rw [show j + 1 + i2 = j + (i2 + 1) by omega] at h2
      rw [h2]
      simp

theorem lookup_enumDict (xs : List Obj) (i : Nat) :
    (enumDict xs).lookup (.kInt i) = xs[i]? := by
  have := lookup_pyEnum xs 0 i
  rwa [Nat.zero_add] at this

theorem map_fst_pyEnum (xs : List Obj) :
    ∀ j, (pyEnum xs j).map Prod.fst = (List.range xs.length).map (fun i => Key.kInt (j + i)) := by
  induction xs with
  | nil => intro j; rfl
  | cons x rest ih =>
    intro j
    have hr : List.range (rest.length + 1) = 0 :: (List.range rest.length).map Nat.succ :=
      List.range_succ_eq_map rest.length
    simp only [pyEnum, List.map_cons, List.length_cons, hr, List.map_map]
    rw [ih (j + 1)]
    congr 1
    apply List.map_congr_left
    intro i _
    simp only [Function.comp]
    congr 1
    omega

theorem map_fst_enumDict (xs : List Obj) :
    (enumDict xs).map Prod.fst = (List.range xs.length).map Key.kInt := by
  rw [enumDict, map_fst_pyEnum]
  apply List.map_congr_left
  intro i _
  simp

theorem mem_range_map_kInt {m i : Nat} :
    (Key.kInt i ∈ (List.range m).map Key.kInt) ↔ i < m := by
  constructor
  · intro h
    obtain ⟨j, hj, hji⟩ := List.mem_map.1 h
    cases hji
    exact List.mem_range.1 hj
  · intro h
    exact List.mem_map.2 ⟨i, List.mem_range.2 h, rfl⟩

theorem contains_range_kInt (m i : Nat) :
    ((List.range m).map Key.kInt).contains (Key.kInt i) = decide (i < m) := by
  by_cases h : i < m
  · rw [decide_eq_true h]
    exact List.elem_iff.2 (mem_range_map_kInt.2 h)
  · rw [decide_eq_false h]
    exact Bool.eq_false_iff.mpr
      (fun hc => h (mem_range_map_kInt.1 (List.elem_iff.1 hc)))

theorem range_filter_not_lt (m : Nat) :
    ∀ n, m ≤ n →
      (List.range n).filter (fun i => !decide (i < m)) = (List.range n).drop m := by
  intro n
  induction n with
  | zero =>
    intro h
    have : m = 0 := Nat.le_zero.1 h
    subst this
    rfl
  | succ n ih =>
    intro h
    rw [List.range_succ, List.filter_append]
    by_cases hm : m ≤ n
    · rw [ih hm, List.drop_append_of_le_length (by simpa using hm)]
      congr 1
      have : (!decide (n < m)) = true := by
        simp only [Bool.not_eq_true']
        exact decide_eq_false (by omega)
      simp [this]
    · have hmn : m = n + 1 := by omega
      subst hmn
      have h1 : (List.range n).filter (fun i => !decide (i < n + 1)) = [] := by
        apply List.filter_eq_nil_iff.2
        intro i hi
        have : i < n + 1 := by
          have := List.mem_range.1 hi
          omega
        simp [this]
      have h2 : [n].filter (fun i => !decide (i < n + 1)) = [] := by
        simp [List.filter]
      have h3 : ((List.range n ++ [n]).drop (n + 1)) = [] := by
        apply List.drop_eq_nil_of_le
        simp
      rw [h1, h2, h3]
      rfl

theorem keysUnion_enumDict (xs ys : List Obj) :
    keysUnion (enumDict xs) (enumDict ys)
      = (List.range (max xs.length ys.length)).map Key.kInt := by
  rw [keysUnion, map_fst_enumDict, map_fst_enumDict]
  rcases Nat.le_total ys.length xs.length with hle | hle
  · rw [max_eq_left hle]
    have hfilter : ((List.range ys.length).map Key.kInt).filter
        (fun k => !((List.range xs.length).map Key.kInt).contains k) = [] := by
      apply List.filter_eq_nil_iff.2
      intro k hk
      obtain ⟨i, hi, hik⟩ := List.mem_map.1 hk
      cases hik
      have hlt : i < xs.length := Nat.lt_of_lt_of_le (List.mem_range.1 hi) hle
      simp [contains_range_kInt, hlt]
    rw [hfilter, List.append_nil]
  · rw [max_eq_right hle]
    have hfilter : ((List.range ys.length).map Key.kInt).filter
        (fun k => !((List.range xs.length).map Key.kInt).contains k)
        = ((List.range ys.length).filter (fun i => !decide (i < xs.length))).map Key.kInt := by
      rw [List.filter_map]
      congr 1
      apply List.filter_congr
      intro i _
      simp only [Function.comp]
      rw [contains_range_kInt]
    rw [hfilter, range_filter_not_lt _ _ hle, ← List.map_append]
    congr 1
    have htake : (List.range ys.length).take xs.length = List.range xs.length := by
      rw [List.take_range, min_eq_left hle]
    rw [← htake]
    exact List.take_append_drop _ _

theorem sortKeys_sorted : ∀ {l : List Key},
    l.Pairwise (fun a b => keyLE a b = true) → sortKeys l = l := by
  intro l
  induction l with
  | nil => intro _; rfl
  | cons x xs ih =>
    intro h
    rw [sortKeys, ih (List.Pairwise.of_cons h)]
    cases xs with
    | nil => rfl
    | cons y ys =>
      have hxy : keyLE x y = true :=
        (List.pairwise_cons.1 h).1 y (List.mem_cons_self _ _)
      rw [insertKey, if_pos hxy]

theorem sortKeys_range_kInt (m : Nat) :
    sortKeys ((List.range m).map Key.kInt) = (List.range m).map Key.kInt := by
  apply sortKeys_sorted
  apply List.Pairwise.map
  · intro a b hab
    show keyLE (Key.kInt a) (Key.kInt b) = true
    show decide (a ≤ b) = true
    exact decide_eq_true (Nat.le_of_lt hab)
  · exact List.pairwise_lt_range m

theorem lookup_map_keyfun (ks : List Key) (f : Key → Obj) (k : Key) :
    (ks.map (fun k2 => (k2, f k2))).lookup k = if k ∈ ks then some (f k) else none := by
  induction ks with
  | nil => rfl
  | cons a rest ih =>
    simp only [List.map_cons, List.lookup]
    by_cases hk : k = a
    · subst hk
      simp
    · rw [beq_false_of_ne hk, ih]
      by_cases hm : k ∈ rest
      · rw [if_pos hm, if_pos (List.mem_cons_of_mem _ hm)]
      · rw [if_neg hm, if_neg (by simp [hk, hm])]

theorem map_fst_keyfun (ks : List Key) (f : Key → Obj) :
    (ks.map (fun k2 => (k2, f k2))).map Prod.fst = ks := by
  induction ks with
  | nil => rfl
  | cons a r ih => simp [ih]

theorem combineIospecsList_getElem (xs ys : List Obj) :
    (combineIospecsList xs ys).length = max xs.length ys.length
    ∧ ∀ i, i < max xs.length ys.length →
      (combineIospecsList xs ys)[i]?
        = some (combineIospecs (getNP (enumDict xs) (.kInt i)) (getNP (enumDict ys) (.kInt i))) := by
  have hks : (combineIospecsDict (enumDict xs) (enumDict ys)).map Prod.fst
      = (List.range (max xs.length ys.length)).map Key.kInt := by
    rw [combineIospecsDict, map_fst_keyfun, keysUnion_enumDict]
  have hres : combineIospecsList xs ys
      = ((List.range (max xs.length ys.length)).map Key.kInt).map
          (fun k => getNP (combineIospecsDict (enumDict xs) (enumDict ys)) k) := by
    show (sortKeys ((combineIospecsDict (enumDict xs) (enumDict ys)).map Prod.fst)).map
        (fun k => getNP (combineIospecsDict (enumDict xs) (enumDict ys)) k) = _
    rw [hks, sortKeys_range_kInt]
  constructor
  · rw [hres]
    simp
  · intro i hi
    rw [hres, List.getElem?_map, List.getElem?_map, List.getElem?_range hi]
    show some (getNP (combineIospecsDict (enumDict xs) (enumDict ys)) (Key.kInt i)) = _
    congr 1
    rw [getNP, combineIospecsDict, lookup_map_keyfun]
    rw [if_pos (by rw [keysUnion_enumDict]; exact mem_range_map_kInt.2 hi)]

-- ------------------------------- Claims -----------------------------------

/-- C1 counterexample: combine_iospecs does not treat a
    HomogeneousSequenceSchema/ListOf node as sequence-shaped.  Combining the
    required node ListOf(int) with the optional plain sequence schema [str]
    returns the ListOf node unchanged instead of converting both sides to
    positional mappings and returning a plain sequence schema. -/
theorem C1_combine_sequences_counterexample :
    combineIospecs (.listOf (.handle .tInt)) (.vList [.handle .tStr])
        = .listOf (.handle .tInt)
    ∧ ∀ zs : List Obj,
        combineIospecs (.listOf (.handle .tInt)) (.vList [.handle .tStr])
          ≠ .vList zs :=
  ⟨rfl, fun _ h => Obj.noConfusion h⟩

/-- C1 (amended): combine_iospecs converts the two sides to positional
    mappings, combines them as a mapping and returns a plain sequence schema
    ordered by index only when BOTH sides are plain sequence schemas; the
    result then has the length of the longer side and combines the two
    nodes at each index (NotProvided standing for a missing index).  A
    ListOf node is not sequence-shaped for combine_iospecs: any pair
    involving a ListOf falls through to the required-wins arm, which
    returns the required-side node unchanged. -/
theorem C1_combine_sequences_amended :
    (∀ xs ys : List Obj,
        combineIospecs (.vList xs) (.vList ys) = .vList (combineIospecsList xs ys)
        ∧ (combineIospecsList xs ys).length = max xs.length ys.length
        ∧ ∀ i, i < max xs.length ys.length →
            (combineIospecsList xs ys)[i]?
              = some (combineIospecs (getNP (enumDict xs) (.kInt i))
                  (getNP (enumDict ys) (.kInt i))))
    ∧ (∀ s b : Obj, combineIospecs (.listOf s) b = .listOf s)
    ∧ (∀ a s : Obj, a ≠ .notProvided → combineIospecs a (.listOf s) = a) := by
  refine ⟨fun xs ys => ⟨combineIospecs_list_list xs ys,
      (combineIospecsList_getElem xs ys).1, (combineIospecsList_getElem xs ys).2⟩, ?_, ?_⟩
  · intro s b
    cases b <;> rfl
  · intro a s ha
    exact combineIospecs_required_wins ha (by cases a <;> rfl) (by cases a <;> rfl)

theorem C1_combine_sequences_amended_witness :
    ((combineIospecsList [Obj.handle .tInt] [Obj.handle .tStr, Obj.handle .tBool])[1]?
        = some (combineIospecs (getNP (enumDict [Obj.handle .tInt]) (.kInt 1))
            (getNP (enumDict [Obj.handle .tStr, Obj.handle .tBool]) (.kInt 1))))
    ∧ combineIospecs (Obj.vInt 5) (.listOf (Obj.handle .tInt)) = Obj.vInt 5 :=
  ⟨(C1_combine_sequences_amended.1 [Obj.handle .tInt]
      [Obj.handle .tStr, Obj.handle .tBool]).2.2 1 (by decide),
   C1_combine_sequences_amended.2.2 (Obj.vInt 5) (Obj.handle .tInt)
      (fun h => Obj.noConfusion h)⟩

/-- The processor of the unlimited scenario: optional nested schema and the
    unlimited flag. -/
def unlimitedNestedProcessor : IOProcessor :=
  { optional := .vDict [(.kStr "a", .vDict [(.kStr "b", .handle .tInt)])]
    unlimited := true }

/-- C2: with unlimited=True only undeclared TOP-LEVEL keys are exempted from
    the Not-allowed channel.  filter_unlimited keeps exactly the unknown
    entries whose top-level key occurs in the combined iospec (so nested
    reports under a declared key survive untouched, and an undeclared
    top-level key never contributes a failure); concretely, verifying
    a value with a nested extraneous key under the declared key a fails on
    that nested key, while a value with only an undeclared top-level key
    passes. -/
theorem C2_unlimited_top_level_only :
    (∀ (u : List (Key × DiffResult)) (ds : List (Key × Obj)) (r : DiffResult),
        filterUnlimited (.dict u) (.vDict ds) = .ok r →
        (∀ es, r = .dict es → ∀ k rr, (k, rr) ∈ es → containsKey ds k = true)
        ∧ (∀ k rr, (k, rr) ∈ u → containsKey ds k = true →
            ∃ es, r = .dict es ∧ (k, rr) ∈ es))
    ∧ unlimitedNestedProcessor.verify
        (.vDict [(.kStr "a", .vDict [(.kStr "b", .vInt 1), (.kStr "x", .vInt 2)])])
        = .error (.failure
            "Invalid input/output.\nNot allowed: \x7b\x27a\x27: \x7b\x27x\x27: 2\x7d\x7d")
    ∧ unlimitedNestedProcessor.verify (.vDict [(.kStr "y", .vInt 1)]) = .ok () := by
  refine ⟨?_, rfl, rfl⟩
  intro u ds r hr
  cases u with
  | nil =>
    injection hr with hr2
    constructor
    · intro es hes
      rw [← hr2] at hes
      exact DiffResult.noConfusion hes
    · intro k rr hmem
      cases hmem
  | cons e rest =>
    have hr2 : (match (e :: rest).filter (fun e2 => containsKey ds e2.1) with
        | [] => (Except.ok DiffResult.noDiff : Except PyErr DiffResult)
        | res => Except.ok (DiffResult.dict res)) = .ok r := hr
    cases hfil : (e :: rest).filter (fun e2 => containsKey ds e2.1) with
    | nil =>
      rw [hfil] at hr2
      injection hr2 with hr3
      constructor
      · intro es hes
        rw [← hr3] at hes
        exact DiffResult.noConfusion hes
      · intro k rr hmem hcont
        have hmem2 : (k, rr) ∈ (e :: rest).filter (fun e2 => containsKey ds e2.1) :=
          List.mem_filter.2 ⟨hmem, hcont⟩
        rw [hfil] at hmem2
        cases hmem2
    | cons f fs =>
      rw [hfil] at hr2
      injection hr2 with hr3
      constructor
      · intro es hes
        rw [← hr3] at hes
        injection hes with hes2
        intro k rr hmem
        rw [← hes2] at hmem
        have hmem2 : (k, rr) ∈ (e :: rest).filter (fun e2 => containsKey ds e2.1) := by
          rw [hfil]
          exact hmem
        exact (List.mem_filter.1 hmem2).2
      · intro k rr hmem hcont
        refine ⟨f :: fs, hr3.symm, ?_⟩
        rw [← hfil]
        exact List.mem_filter.2 ⟨hmem, hcont⟩

theorem C2_unlimited_top_level_only_witness :
    ∃ es, (DiffResult.dict [(Key.kStr "a", DiffResult.leaf (Obj.vInt 7))] : DiffResult)
        = .dict es ∧ (Key.kStr "a", DiffResult.leaf (Obj.vInt 7)) ∈ es :=
  ((C2_unlimited_top_level_only.1
      [(Key.kStr "a", DiffResult.leaf (Obj.vInt 7))]
      [(Key.kStr "a", Obj.anyType)]
      (.dict [(Key.kStr "a", DiffResult.leaf (Obj.vInt 7))]) rfl).2
    (Key.kStr "a") (DiffResult.leaf (Obj.vInt 7)) (List.mem_cons_self _ _) rfl)

/-- C3: the required-overrides-optional rule.  When the two nodes for a key
    are not both plain dicts and not both plain sequences, combine_iospecs
    returns the required-side node unchanged and raises no error; this holds
    at the top level and, through combine_iospecs_dict (which recursively
    combines the two sides of every key), at every nesting level. -/
theorem C3_required_overrides :
    (∀ a b : Obj, a ≠ .notProvided → (a.isDictC && b.isDictC) = false →
        (a.isSeqC && b.isSeqC) = false → combineIospecs a b = a)
    ∧ (∀ da db : List (Key × Obj),
        combineIospecs (.vDict da) (.vDict db) = .vDict (combineIospecsDict da db))
    ∧ (∀ (da db : List (Key × Obj)) (k : Key) (a b : Obj),
        da.lookup k = some a → db.lookup k = some b → a ≠ .notProvided →
        (a.isDictC && b.isDictC) = false → (a.isSeqC && b.isSeqC) = false →
        (combineIospecsDict da db).lookup k = some a) := by
  refine ⟨fun a b ha hd hs => combineIospecs_required_wins ha hd hs,
    combineIospecs_dict_dict, ?_⟩
  intro da db k a b hla hlb ha hd hs
  have hk : k ∈ keysUnion da db := by
    apply List.mem_append.2
    left
    exact List.mem_map.2 ⟨(k, a), lookup_mem hla, rfl⟩
  rw [combineIospecsDict, lookup_map_keyfun, if_pos hk]
  have hga : getNP da k = a := by rw [getNP, hla]
  have hgb : getNP db k = b := by rw [getNP, hlb]
  rw [hga, hgb, combineIospecs_required_wins ha hd hs]

theorem C3_required_overrides_witness :
    combineIospecs (Obj.handle .tInt) (Obj.handle .tStr) = Obj.handle .tInt
    ∧ (combineIospecsDict [(Key.kStr "a", Obj.handle .tInt)]
        [(Key.kStr "a", Obj.handle .tStr)]).lookup (Key.kStr "a")
        = some (Obj.handle .tInt) :=
  ⟨C3_required_overrides.1 _ _ (fun h => Obj.noConfusion h) rfl rfl,
   C3_required_overrides.2.2 _ _ _ _ _ rfl rfl (fun h => Obj.noConfusion h) rfl rfl⟩

/-- An IOProcessor built with all-default arguments. -/
def defaultProcessor : IOProcessor := {}

theorem confirmTypeList_single_listOf (p : IOProcessor) (v inner : Obj) :
    confirmTypeList p (.vList [v]) (.listOf inner)
      = match confirmTypeIoval p v inner false with
        | .ok _ => .ok ()
        | .error (.py e) => .error (.py e)
        | .error (.wrong r) => .error (.wrong (.dict [(.kInt 0, r)])) := by
  show (match collectWrongs (fun v2 s => confirmTypeIoval p v2 s false)
        [(Key.kInt 0, v)] [(Key.kInt 0, inner)] with
      | .error e => Except.error (CErr.py e)
      | .ok [] => .ok ()
      | .ok ws => .error (.wrong (.dict ws))) = _
  have hcw : collectWrongs (fun v2 s => confirmTypeIoval p v2 s false)
      [(Key.kInt 0, v)] [(Key.kInt 0, inner)]
      = match confirmTypeIoval p v inner false with
        | .ok _ => .ok []
        | .error (.py e) => .error e
        | .error (.wrong r) => .ok [(Key.kInt 0, r)] := by
    simp only [collectWrongs, List.lookup, beq_self_eq_true]
  rw [hcw]
  cases hc : confirmTypeIoval p v inner false with
  | ok u => rfl
  | error ce => cases ce <;> rfl

theorem confirmTypeList_single_plain (p : IOProcessor) (v s0 : Obj) :
    confirmTypeList p (.vList [v]) (.vList [s0])
      = match confirmTypeIoval p v s0 true with
        | .ok _ => .ok ()
        | .error (.py e) => .error (.py e)
        | .error (.wrong r) => .error (.wrong (.dict [(.kInt 0, r)])) := by
  show (match collectWrongs (fun v2 s => confirmTypeIoval p v2 s true)
        [(Key.kInt 0, v)] [(Key.kInt 0, s0)] with
      | .error e => Except.error (CErr.py e)
      | .ok [] => .ok ()
      | .ok ws => .error (.wrong (.dict ws))) = _
  have hcw : collectWrongs (fun v2 s => confirmTypeIoval p v2 s true)
      [(Key.kInt 0, v)] [(Key.kInt 0, s0)]
      = match confirmTypeIoval p v s0 true with
        | .ok _ => .ok []
        | .error (.py e) => .error e
        | .error (.wrong r) => .ok [(Key.kInt 0, r)] := by
    simp only [collectWrongs, List.lookup, beq_self_eq_true]
  rw [hcw]
  cases hc : confirmTypeIoval p v s0 true with
  | ok u => rfl
  | error ce => cases ce <;> rfl

theorem confirm_vNone_error (inner : Obj) :
    ∃ e, confirmTypeIoval defaultProcessor .vNone inner false = .error e := by
  cases inner with
  | vDict ds =>
    exact ⟨.wrong (.pair (.handle .tDict) .tNoneType),
      by rw [confirmTypeIoval_dict]; rfl⟩
  | vList ss =>
    exact ⟨.wrong (.pair (.vList ss) .tNoneType),
      by rw [confirmTypeIoval_list]; rfl⟩
  | listOf s =>
    exact ⟨.wrong (.pair (.listOf s) .tNoneType),
      by rw [confirmTypeIoval_listOf]; rfl⟩
  | vInt n => exact ⟨_, rfl⟩
  | vBool b => exact ⟨_, rfl⟩
  | vStr s => exact ⟨_, rfl⟩
  | vNone => exact ⟨_, rfl⟩
  | vCustom c i => exact ⟨_, rfl⟩
  | handle t => exact ⟨_, rfl⟩
  | anyType => exact ⟨_, rfl⟩
  | notProvided => exact ⟨_, rfl⟩

theorem confirm_vNone_handle_ok (t : TypeHandle) :
    confirmTypeIoval defaultProcessor .vNone (.handle t) true = .ok () := by
  cases t <;> rfl

/-- C4: type confirmation of a sequence value forces the null-not-ok policy
    exactly for ListOf schemas: a [None] value fails against ListOf(inner)
    for every element schema, with the ListOf(int) case recording a
    wrong-type pair at position 0, while [None] passes against the plain
    sequence schema [t] for every type handle t (null elements are accepted
    under the default policy). -/
theorem C4_null_policy_asymmetry :
    (∀ inner : Obj, ∃ e,
        confirmTypeIoval defaultProcessor (.vList [.vNone]) (.listOf inner) = .error e)
    ∧ (∀ t : TypeHandle,
        confirmTypeIoval defaultProcessor (.vList [.vNone]) (.vList [.handle t]) = .ok ())
    ∧ confirmTypeIoval defaultProcessor (.vList [.vNone]) (.listOf (.handle .tInt))
        = .error (.wrong (.dict [(.kInt 0, .pair (.handle .tInt) .tNoneType)]))
    ∧ confirmTypeIoval defaultProcessor (.vList [.vNone]) (.vList [.handle .tInt]) = .ok () := by
  refine ⟨?_, ?_, rfl, rfl⟩
  · intro inner
    obtain ⟨e, he⟩ := confirm_vNone_error inner
    rw [confirmTypeIoval_listOf, confirmTypeList_single_listOf, he]
    cases e with
    | wrong r => exact ⟨_, rfl⟩
    | py e2 => exact ⟨_, rfl⟩
  · intro t
    rw [confirmTypeIoval_list, confirmTypeList_single_plain, confirm_vNone_handle_ok]

theorem collectWrongs_complete {check : Obj → Obj → Except CErr Unit} :
    ∀ {dv ispec : List (Key × Obj)} {ws : List (Key × WrongTypeResult)},
      collectWrongs check dv ispec = .ok ws →
      ∀ {k : Key} {v s : Obj} {r : WrongTypeResult},
        (k, v) ∈ dv → ispec.lookup k = some s → check v s = .error (.wrong r) →
        (k, r) ∈ ws := by
  intro dv
  induction dv with
  | nil =>
    intro ispec ws _ k v s r hmem
    cases hmem
  | cons e rest ih =>
    intro ispec ws h k v s r hmem hl hc
    obtain ⟨k0, v0⟩ := e
    cases hl0 : ispec.lookup k0 with
    | none =>
      have h2 : collectWrongs check rest ispec = .ok ws := by
        simp only [collectWrongs, hl0] at h
        exact h
      rcases List.mem_cons.1 hmem with he | hm
      · injection he with hk _
        rw [hk, hl0] at hl
        exact Option.noConfusion hl
      · exact ih h2 hm hl hc
    | some s0 =>
      cases hc0 : check v0 s0 with
      | ok u =>
        have h2 : collectWrongs check rest ispec = .ok ws := by
          simp only [collectWrongs, hl0, hc0] at h
          exact h
        rcases List.mem_cons.1 hmem with he | hm
        · injection he with hk hv
          rw [hk, hl0] at hl
          injection hl with hs2
          rw [hv, ← hs2, hc0] at hc
          exact Except.noConfusion hc
        · exact ih h2 hm hl hc
      | error ce =>
        cases ce with
        | py e2 =>
          simp only [collectWrongs, hl0, hc0] at h
          exact Except.noConfusion h
        | wrong r0 =>
          cases ht : collectWrongs check rest ispec with
          | error e2 =>
            simp only [collectWrongs, hl0, hc0, ht] at h
            exact Except.noConfusion h
          | ok tail =>
            have hws : ws = (k0, r0) :: tail := by
              simp only [collectWrongs, hl0, hc0, ht] at h
              injection h with h2
              exact h2.symm
            rcases List.mem_cons.1 hmem with he | hm
            · injection he with hk hv
              rw [hk, hl0] at hl
              injection hl with hs2
              have hr : r = r0 := by
                rw [hv, ← hs2, hc0] at hc
                exact (CErr.wrong.inj (Except.error.inj hc)).symm
              rw [hws, hk, hr]
              exact List.mem_cons_self _ _
            · rw [hws]
              exact List.mem_cons_of_mem _ (ih ht hm hl hc)

/-- The processor of the aggregation scenario: two required int keys. -/
def wrongTwiceProcessor : IOProcessor :=
  { required := .vDict [(.kStr "a", .handle .tInt), (.kStr "b", .handle .tInt)] }

/-- C5: confirm_type_dict does not short-circuit: every key of the value
    that has a spec entry and fails its recursive check contributes its
    failure result to the single aggregated WrongTypeDictError that is
    raised after the loop; concretely, verifying two wrong-typed keys
    reports both in one raised message. -/
theorem C5_aggregation_completeness :
    (∀ (p : IOProcessor) (nOk : Bool) (dv ispec : List (Key × Obj))
        (m : List (Key × WrongTypeResult)),
        confirmTypeDict p (.vDict dv) ispec nOk = .error (.wrong (.dict m)) →
        ∀ (k : Key) (v s : Obj) (r : WrongTypeResult),
          (k, v) ∈ dv → ispec.lookup k = some s →
          confirmTypeIoval p v s nOk = .error (.wrong r) → (k, r) ∈ m)
    ∧ wrongTwiceProcessor.verify
        (.vDict [(.kStr "a", .vStr "wrong"), (.kStr "b", .vStr "wrong")])
        = .error (.failure
            "Invalid input/output.\nWrong type: \x7b\x27a\x27: (expected \x27int\x27; got \x27str\x27), \x27b\x27: (expected \x27int\x27; got \x27str\x27)\x7d") := by
  refine ⟨?_, rfl⟩
  intro p nOk dv ispec m h k v s r hmem hl hc
  have h2 : (match collectWrongs (fun v2 s2 => confirmTypeIoval p v2 s2 nOk) dv ispec with
      | .error e => Except.error (CErr.py e)
      | .ok [] => .ok ()
      | .ok ws => .error (.wrong (.dict ws)))
      = .error (.wrong (.dict m)) := h
  cases hcw : collectWrongs (fun v2 s2 => confirmTypeIoval p v2 s2 nOk) dv ispec with
  | error e =>
    rw [hcw] at h2
    injection h2 with h3
    exact absurd h3 (by intro h4; exact CErr.noConfusion h4)
  | ok ws =>
    cases ws with
    | nil =>
      rw [hcw] at h2
      exact Except.noConfusion h2
    | cons w ws2 =>
      rw [hcw] at h2
      injection h2 with h3
      injection h3 with h4
      injection h4 with h5
      rw [← h5]
      exact collectWrongs_complete hcw hmem hl hc

theorem C5_aggregation_completeness_witness :
    (Key.kStr "a", WrongTypeResult.pair (Obj.handle .tInt) .tStr)
      ∈ [(Key.kStr "a", WrongTypeResult.pair (Obj.handle .tInt) .tStr),
         (Key.kStr "b", WrongTypeResult.pair (Obj.handle .tInt) .tStr)] :=
  C5_aggregation_completeness.1 defaultProcessor true
    [(Key.kStr "a", Obj.vStr "wrong"), (Key.kStr "b", Obj.vStr "wrong")]
    [(Key.kStr "a", Obj.handle .tInt), (Key.kStr "b", Obj.handle .tInt)]
    [(Key.kStr "a", WrongTypeResult.pair (Obj.handle .tInt) .tStr),
     (Key.kStr "b", WrongTypeResult.pair (Obj.handle .tInt) .tStr)]
    rfl (Key.kStr "a") (Obj.vStr "wrong") (Obj.handle .tInt)
    (WrongTypeResult.pair (Obj.handle .tInt) .tStr)
    (List.mem_cons_self _ _) rfl rfl

/-- The processor of the failing C6 input: a plain sequence schema under a
    required key. -/
def listSchemaProcessor : IOProcessor :=
  { required := .vDict [(.kStr "a", .vList [.handle .tInt])] }

/-- C6 (code bug): when the missing channel records a plain sequence schema
    leaf (required has a list schema under a key absent from the value),
    rendering the Missing section calls TypeNameRepresentation on the list
    node, whose missing __name__ raises AttributeError, so verify (and the
    directional facade, which only converts VerificationFailureError)
    escapes with AttributeError instead of the claimed single
    VerificationFailureError. -/
theorem C6_verify_attribute_error :
    listSchemaProcessor.verify (.vDict []) = .error (.py .attributeError)
    ∧ (mkIOManager listSchemaProcessor {}).verifyInput (.vDict [])
        = .error (.py .attributeError) :=
  ⟨rfl, rfl⟩

theorem lookup_cons_ne {k k0 : Key} {v0 : Obj} {tail : List (Key × Obj)} (h : k ≠ k0) :
    ((k0, v0) :: tail).lookup k = tail.lookup k := by
  simp [List.lookup, beq_false_of_ne h]

theorem coerceEntries_map_fst {co : Obj → Obj → Except PyErr Obj} :
    ∀ {dv ispec rd : List (Key × Obj)},
      coerceEntries co dv ispec = .ok rd → rd.map Prod.fst = dv.map Prod.fst := by
  intro dv
  induction dv with
  | nil =>
    intro ispec rd h
    injection h with h2
    rw [← h2]
  | cons e rest ih =>
    intro ispec rd h
    obtain ⟨k, v⟩ := e
    cases hl : ispec.lookup k with
    | none =>
      cases ht : coerceEntries co rest ispec with
      | error e2 =>
        simp only [coerceEntries, hl, ht] at h
        exact Except.noConfusion h
      | ok tail =>
        simp only [coerceEntries, hl, ht] at h
        injection h with h2
        rw [← h2]
        simp [ih ht]
    | some s =>
      cases hc : co v s with
      | error e2 =>
        simp only [coerceEntries, hl, hc] at h
        exact Except.noConfusion h
      | ok r =>
        cases ht : coerceEntries co rest ispec with
        | error e2 =>
          simp only [coerceEntries, hl, hc, ht] at h
          exact Except.noConfusion h
        | ok tail =>
          simp only [coerceEntries, hl, hc, ht] at h
          injection h with h2
          rw [← h2]
          simp [ih ht]

theorem coerceEntries_pyEnum_lookup {co : Obj → Obj → Except PyErr Obj}
    {ispec : List (Key × Obj)} :
    ∀ (xs : List Obj) (j : Nat) (rd : List (Key × Obj)),
      coerceEntries co (pyEnum xs j) ispec = .ok rd →
      ∀ (i : Nat) (hi : i < xs.length),
        (ispec.lookup (.kInt (j + i)) = none
          ∧ rd.lookup (.kInt (j + i)) = some (xs.get ⟨i, hi⟩))
        ∨ ∃ s y, ispec.lookup (.kInt (j + i)) = some s
            ∧ co (xs.get ⟨i, hi⟩) s = .ok y
            ∧ rd.lookup (.kInt (j + i)) = some y := by
  intro xs
  induction xs with
  | nil =>
    intro j rd h i hi
    exact absurd hi (Nat.not_lt_zero i)
  | cons x rest ih =>
    intro j rd h i hi
    cases hl : ispec.lookup (.kInt j) with
    | none =>
      cases ht : coerceEntries co (pyEnum rest (j + 1)) ispec with
      | error e2 =>
        simp only [pyEnum, coerceEntries, hl, ht] at h
        exact Except.noConfusion h
      | ok tail =>
        simp only [pyEnum, coerceEntries, hl, ht] at h
        injection h with h2
        cases i with
        | zero =>
          left
          refine ⟨hl, ?_⟩
          rw [← h2]
          simp [List.lookup]
        | succ i2 =>
          have hi2 : i2 < rest.length := Nat.lt_of_succ_lt_succ hi
          have hres := ih (j + 1) tail ht i2 hi2
          have hkey : j + 1 + i2 = j + (i2 + 1) := by omega
          rw [hkey] at hres
          have hne : Key.kInt (j + (i2 + 1)) ≠ Key.kInt j := by
            intro hcontra
            injection hcontra with hc2
            omega
          rcases hres with ⟨ha, hb⟩ | ⟨s, y, ha, hb, hc⟩
          · left
            exact ⟨ha, by rw [← h2, lookup_cons_ne hne]; exact hb⟩
          · right
            exact ⟨s, y, ha, hb, by rw [← h2, lookup_cons_ne hne]; exact hc⟩
    | some s0 =>
      cases hc : co x s0 with
      | error e2 =>
        simp only [pyEnum, coerceEntries, hl, hc] at h
        exact Except.noConfusion h
      | ok r =>
        cases ht : coerceEntries co (pyEnum rest (j + 1)) ispec with
        | error e2 =>
          simp only [pyEnum, coerceEntries, hl, hc, ht] at h
          exact Except.noConfusion h
        | ok tail =>
          simp only [pyEnum, coerceEntries, hl, hc, ht] at h
          injection h with h2
          cases i with
          | zero =>
            right
            refine ⟨s0, r, hl, hc, ?_⟩
            rw [← h2]
            simp [List.lookup]
          | succ i2 =>
            have hi2 : i2 < rest.length := Nat.lt_of_succ_lt_succ hi
            have hres := ih (j + 1) tail ht i2 hi2
            have hkey : j + 1 + i2 = j + (i2 + 1) := by omega
            rw [hkey] at hres
            have hne : Key.kInt (j + (i2 + 1)) ≠ Key.kInt j := by
              intro hcontra
              injection hcontra with hc2
              omega
            rcases hres with ⟨ha, hb⟩ | ⟨s, y, ha, hb, hc2⟩
            · left
              exact ⟨ha, by rw [← h2, lookup_cons_ne hne]; exact hb⟩
            · right
              exact ⟨s, y, ha, hb, by rw [← h2, lookup_cons_ne hne]; exact hc2⟩

/-- C7: coerce_list preserves order and length: whenever a sequence value is
    coerced against a schema accepted by make_dict_from_listlike (a plain
    sequence schema or a ListOf), a successful result has the same length as
    the input and its element at index i is exactly the coercion of the
    input element at index i against that position of the expanded spec (or
    the unchanged input element when the spec has no entry at i), for every
    element coercion behavior. -/
theorem C7_coerce_list_order_length :
    ∀ (p : IOProcessor) (xs : List Obj) (spec : Obj) (ispec : List (Key × Obj))
      (res : List Obj),
      makeDictFromListlike spec (some xs.length) = .ok ispec →
      coerceList p (.vList xs) spec = .ok res →
      res.length = xs.length
      ∧ ∀ (i : Nat) (hi : i < xs.length),
          (ispec.lookup (.kInt i) = none ∧ res[i]? = some (xs.get ⟨i, hi⟩))
          ∨ ∃ s y, ispec.lookup (.kInt i) = some s
              ∧ coerceIoval p (xs.get ⟨i, hi⟩) s = .ok y
              ∧ res[i]? = some y := by
  intro p xs spec ispec res hmk hres
  have h0 : coerceList p (.vList xs) spec
      = (match makeDictFromListlike spec (some xs.length) with
        | .error e => .error e
        | .ok ispec2 =>
          match coerceDict p (.vDict (enumDict xs)) ispec2 with
          | .error e => .error e
          | .ok rd => .ok ((sortKeys (rd.map Prod.fst)).map (fun k => getNP rd k))) := rfl
  rw [h0] at hres
  simp only [hmk] at hres
  cases hcd : coerceDict p (.vDict (enumDict xs)) ispec with
  | error e =>
    simp only [hcd] at hres
    exact Except.noConfusion hres
  | ok rd =>
    simp only [hcd] at hres
    injection hres with h2
    have hkeys : rd.map Prod.fst = (List.range xs.length).map Key.kInt := by
      have h3 := coerceEntries_map_fst
        (show coerceEntries (fun v s => coerceIoval p v s) (enumDict xs) ispec = .ok rd
          from hcd)
      rw [h3, map_fst_enumDict]
    have hres2 : res = ((List.range xs.length).map Key.kInt).map (fun k => getNP rd k) := by
      rw [← h2, hkeys, sortKeys_range_kInt]
    constructor
    · rw [hres2]
      simp
    · intro i hi
      have hri : res[i]? = some (getNP rd (Key.kInt i)) := by
        rw [hres2]
        simp [List.getElem?_map, List.getElem?_range, hi]
      have hlk := coerceEntries_pyEnum_lookup xs 0 rd hcd i hi
      rw [Nat.zero_add] at hlk
      rcases hlk with ⟨ha, hb⟩ | ⟨s, y, ha, hb, hc⟩
      · left
        refine ⟨ha, ?_⟩
        rw [hri]
        simp only [getNP, hb]
      · right
        refine ⟨s, y, ha, hb, ?_⟩
        rw [hri]
        simp only [getNP, hc]

/-- C9 counterexample: the spec says the sequence-side wrong-type failure
    records a generic list marker as the expected type, but confirm_type_list
    raises WrongTypeError(iospec_obj, ...): on an int value checked against
    ListOf(int) the recorded expected type is the ListOf schema node itself,
    not the list type. -/
theorem C9_container_markers_counterexample :
    confirmTypeIoval defaultProcessor (.vInt 5) (.listOf (.handle .tInt)) true
        = .error (.wrong (.pair (.listOf (.handle .tInt)) .tInt))
    ∧ confirmTypeIoval defaultProcessor (.vInt 5) (.listOf (.handle .tInt)) true
        ≠ .error (.wrong (.pair (.handle .tList) .tInt)) := by
  refine ⟨rfl, ?_⟩
  intro h
  have h2 : (Except.error (CErr.wrong (WrongTypeResult.pair
        (Obj.listOf (Obj.handle .tInt)) .tInt)) : Except CErr Unit)
      = .error (.wrong (.pair (.handle .tList) .tInt)) := h
  injection h2 with h3
  injection h3 with h4
  injection h4 with h5 h6
  exact Obj.noConfusion h5

/-- C9 amended: a non-mapping value against a mapping schema records the
    generic dict marker as the expected type, while a non-sequence value
    against a sequence or ListOf schema records the schema node itself (not
    a generic list marker) together with the value's type. -/
theorem C9_container_markers_amended :
    (∀ (p : IOProcessor) (nOk : Bool) (v : Obj) (ds : List (Key × Obj)),
        v.isDictC = false →
        confirmTypeDict p v ds nOk = .error (.wrong (.pair (.handle .tDict) v.typeOf)))
    ∧ (∀ (p : IOProcessor) (v sp : Obj), v.isSeqC = false →
        confirmTypeList p v sp = .error (.wrong (.pair sp v.typeOf))) := by
  constructor
  · intro p nOk v ds h
    cases v <;> first
      | rfl
      | exact Bool.noConfusion h
  · intro p v sp h
    cases v <;> first
      | rfl
      | exact Bool.noConfusion h

theorem C9_container_markers_amended_witness :
    Obj.isDictC (Obj.vInt 5) = false
    ∧ confirmTypeDict defaultProcessor (Obj.vInt 5) [] true
        = .error (.wrong (.pair (.handle .tDict) .tInt))
    ∧ Obj.isSeqC (Obj.vInt 5) = false
    ∧ confirmTypeList defaultProcessor (Obj.vInt 5) (.listOf (.handle .tInt))
        = .error (.wrong (.pair (.listOf (.handle .tInt)) .tInt)) :=
  ⟨rfl, C9_container_markers_amended.1 defaultProcessor true (Obj.vInt 5) [] rfl, rfl,
   C9_container_markers_amended.2 defaultProcessor (Obj.vInt 5)
     (.listOf (.handle .tInt)) rfl⟩

theorem C7_coerce_list_order_length_witness :
    makeDictFromListlike (.vList [.handle .tInt]) (some 2)
        = .ok [(Key.kInt 0, Obj.handle .tInt)]
    ∧ coerceList defaultProcessor (.vList [.vInt 7, .vStr "b"]) (.vList [.handle .tInt])
        = .ok [.vInt 7, .vStr "b"]
    ∧ ([Obj.vInt 7, Obj.vStr "b"] : List Obj).length = 2 :=
  ⟨rfl, rfl,
   (C7_coerce_list_order_length defaultProcessor [.vInt 7, .vStr "b"]
      (.vList [.handle .tInt]) [(Key.kInt 0, Obj.handle .tInt)]
      [.vInt 7, .vStr "b"] rfl rfl).1⟩

theorem diff_required_absent (v : Obj) (hv : v ≠ .notProvided) :
    differenceIoval false .notProvided v = .ok .noDiff := by
  cases v <;> first
    | rfl
    | exact absurd rfl hv

theorem diff_unknown_anyType (v : Obj) :
    differenceIoval true v .anyType = .ok .noDiff := by
  cases v <;> rfl

theorem confirm_anyType_no_hook (p : IOProcessor) (v : Obj)
    (htc : tableLookup p.typecheckFns .anyType = none) :
    confirmTypeIoval p v .anyType = .ok () := by
  have h1 : confirmTypeIoval p v .anyType
      = (match tableLookup p.typecheckFns .anyType with
        | some f =>
          match f v .anyType with
          | .success => .ok ()
          | .failure => .error (.wrong (.pair .anyType v.typeOf))
          | .defer => confirmGeneralCase true v .anyType
        | none => confirmGeneralCase true v .anyType) := rfl
  rw [h1, htc]
  cases v <;> rfl

/-- An IOProcessor with no schemas but an AnyType-keyed coercion function. -/
def anyCoerceProcessor : IOProcessor :=
  { coercionFns := [(.anyType, fun _ _ => .ret (.vInt 99))] }

/-- C10 counterexample: a processor constructed with neither a required nor
    an optional schema does not always coerce values unchanged: the combined
    schema is AnyType, and an AnyType-keyed coercion function fires on every
    value, so coerce can rewrite any input. -/
theorem C10_empty_schema_counterexample :
    anyCoerceProcessor.required = .notProvided
    ∧ anyCoerceProcessor.optional = .notProvided
    ∧ anyCoerceProcessor.coerce (.vStr "zzz") = .ok (.vInt 99)
    ∧ (Except.ok (Obj.vInt 99) : Except PyErr Obj) ≠ .ok (.vStr "zzz") := by
  refine ⟨rfl, rfl, rfl, ?_⟩
  intro h
  injection h with h2
  exact Obj.noConfusion h2

/-- C10 amended: when a processor has neither a required nor an optional
    schema, the combined schema is AnyType; provided no AnyType-keyed
    typecheck or coercion function is configured and the value is not the
    NotProvided sentinel, verify returns normally for every value (including
    null and arbitrary containers) and coerce returns the value unchanged. -/
theorem C10_empty_schema_amended (p : IOProcessor) (v : Obj)
    (hreq : p.required = .notProvided) (hopt : p.optional = .notProvided)
    (htc : tableLookup p.typecheckFns .anyType = none)
    (hco : tableLookup p.coercionFns .anyType = none)
    (hv : v ≠ .notProvided) :
    combineIospecs p.required p.optional = .anyType
    ∧ p.verify v = .ok ()
    ∧ p.coerce v = .ok v := by
  have hcomb : combineIospecs p.required p.optional = .anyType := by
    rw [hreq, hopt]
    rfl
  refine ⟨hcomb, ?_, ?_⟩
  · have hm : differenceIoval false Obj.notProvided v = .ok .noDiff :=
      diff_required_absent v hv
    have hu : differenceIoval true v Obj.anyType = .ok .noDiff :=
      diff_unknown_anyType v
    have hfu : filterUnlimited DiffResult.noDiff Obj.anyType = .ok .noDiff := rfl
    have hcf : confirmTypeIoval p v Obj.anyType = .ok () :=
      confirm_anyType_no_hook p v htc
    have hcomb2 : combineIospecs Obj.notProvided Obj.notProvided = Obj.anyType := rfl
    simp only [IOProcessor.verify, hreq, hopt, hcomb2, hm, hu, hfu, hcf, ite_self]
  · have h2 : p.coerce v = coerceIoval p v (combineIospecs p.required p.optional) := rfl
    rw [h2, hcomb]
    have h3 : coerceIoval p v .anyType
        = (match tableLookup p.coercionFns .anyType with
          | none => .ok v
          | some f =>
            match f v .anyType with
            | .ret w => .ok w
            | .success w => .ok w) := rfl
    rw [h3, hco]

theorem C10_empty_schema_amended_witness :
    defaultProcessor.required = .notProvided
    ∧ defaultProcessor.optional = .notProvided
    ∧ tableLookup defaultProcessor.typecheckFns .anyType = none
    ∧ tableLookup defaultProcessor.coercionFns .anyType = none
    ∧ Obj.vStr "x" ≠ .notProvided
    ∧ combineIospecs defaultProcessor.required defaultProcessor.optional = .anyType
    ∧ defaultProcessor.verify (.vStr "x") = .ok ()
    ∧ defaultProcessor.coerce (.vStr "x") = .ok (.vStr "x") :=
  ⟨rfl, rfl, rfl, rfl, fun h => Obj.noConfusion h,
   C10_empty_schema_amended defaultProcessor (.vStr "x") rfl rfl rfl rfl
     (fun h => Obj.noConfusion h)⟩

end IOMgr
